import Mathlib

/-!
# Verification of the noise-cancellation core

A shallow embedding, over exact real/complex arithmetic, of the Go
noise-cancellation engine: the iterative radix-2 Cooley-Tukey FFT
(`src/unnamed/part_002`), the Hann window (`src/backend/window.go`),
the spectral-subtraction denoise pipeline (`src/backend/denoise.go`) and
the 16-bit PCM WAV codec (`src/unnamed/part_004`).

Buffers are `List ℝ` / `List ℂ`; machine floats are modelled by exact
reals, so numeric claims made "up to a tolerance" are settled exactly.
Fallible operations (Go `panic`, Go `error`) return `Option` / `Except`.
-/

namespace NoiseCancel

/-! ## FFT kernel (src/unnamed/part_002) -/

/-- `isPowerOf2` reports whether n is a positive power of 2.
Source: `return n > 0 && (n&(n-1)) == 0`. -/
def isPowerOf2 (n : ℕ) : Bool := decide (0 < n) && decide (n &&& (n - 1) = 0)

/-- `reverseBits` reverses the lowest `bits` bits of `v`.
Source loop: `r = (r << 1) | (v & 1); v >>= 1`, `bits` times. -/
def reverseBits (v : ℕ) : ℕ → ℕ
  | 0 => 0
  | b + 1 => v % 2 * 2 ^ b + reverseBits (v / 2) b

/-- Twiddle factor of a butterfly stage with span `m`:
`wm := cmplx.Exp(complex(0, -2*math.Pi/float64(m)))`. -/
noncomputable def wm (m : ℕ) : ℂ :=
  Complex.exp (((-2 * Real.pi / m : ℝ) : ℂ) * Complex.I)

/-- One butterfly stage of span `m`, as the per-index effect of the loop
`for k := 0; k < n; k += m { for j := 0; j < m/2; j++ { ... } }`:
index `k+j` (`j = i % m < m/2`) receives `u + t`, index `k+j+m/2` receives
`u - t`, where `t = wm^j * out[k+j+m/2]` and `u = out[k+j]`
(in exact arithmetic the running twiddle `w` equals `wm^j`). -/
noncomputable def butterfly (m : ℕ) (A : ℕ → ℂ) (i : ℕ) : ℂ :=
  if i % m < m / 2 then A i + wm m ^ (i % m) * A (i + m / 2)
  else A (i - m / 2) - wm m ^ (i % m - m / 2) * A i

/-- One butterfly stage applied to a buffer. -/
noncomputable def stageList (m : ℕ) (x : List ℂ) : List ℂ :=
  (List.range x.length).map (butterfly m (fun i => x.getD i 0))

/-- The bit-reversal permutation pass `bitReverse(out)`. -/
def bitRevPerm (k : ℕ) (x : List ℂ) : List ℂ :=
  (List.range x.length).map (fun i => x.getD (reverseBits i k) 0)

/-- The body of `FFT` after its guards: copy, bit-reversal pass, then the
butterfly stages `s = 1 .. log2 n` (`int(math.Log2(float64(n)))` is exact
for a power of two). -/
noncomputable def fftRun (x : List ℂ) : List ℂ :=
  (List.range (Nat.log2 x.length)).foldl
    (fun acc s => stageList (2 ^ (s + 1)) acc)
    (bitRevPerm (Nat.log2 x.length) x)

/-- `FFT`: `n == 0` returns nil; a length that is not a power of two
panics (modelled as `none`); otherwise the Cooley-Tukey run. -/
noncomputable def FFT (x : List ℂ) : Option (List ℂ) :=
  if x.length = 0 then some []
  else if isPowerOf2 x.length then some (fftRun x) else none

/-- `IFFT`: `n == 0` returns nil, otherwise
`conj(FFT(conj(X))) / N`, the panic of the inner `FFT` propagating. -/
noncomputable def IFFT (X : List ℂ) : Option (List ℂ) :=
  if X.length = 0 then some []
  else (FFT (X.map (starRingEnd ℂ))).map
    (fun res => res.map (fun z => (starRingEnd ℂ) z / (X.length : ℂ)))

/-- The total body of `IFFT` on a valid (power-of-two length) argument,
used by the denoise pipeline where the length is always `FrameSize`. -/
noncomputable def ifftRun (X : List ℂ) : List ℂ :=
  (fftRun (X.map (starRingEnd ℂ))).map
    (fun z => (starRingEnd ℂ) z / (X.length : ℂ))

/-! ## Window, framing and the denoise pipeline
(src/backend/window.go, src/backend/denoise.go) -/

/-- `FrameSize` is the number of samples per FFT frame. -/
def FrameSize : ℕ := 2048

/-- `HopSize` is the step between consecutive frames. -/
def HopSize : ℕ := FrameSize / 2

/-- `NoiseFrames` is the number of initial frames used to estimate noise. -/
def NoiseFrames : ℕ := 10

/-- `SpectralFloor`: each bin retains at least this fraction of its
original magnitude. -/
noncomputable def SpectralFloor : ℝ := 0.02

/-- `OverSubtract` is the over-subtraction factor (alpha). -/
noncomputable def OverSubtract : ℝ := 2.0

/-- `HannWindow n`: `w[i] = 0.5 * (1 - cos(2*pi*i / (n-1)))`; for `n <= 1`
returns `[1.0]`. -/
noncomputable def HannWindow (n : ℕ) : List ℝ :=
  if n ≤ 1 then [1]
  else (List.range n).map
    (fun (i : ℕ) => 0.5 * (1 - Real.cos (2 * Real.pi * (i : ℝ) / ((n - 1 : ℕ) : ℝ))))

/-- `extractFrame src start size`: Go computes `end := min(start+size,
len(src))` and slices `src[start:end]`, which panics (modelled `none`)
when `start > len(src)`; otherwise a fresh buffer of length `size` holding
`src[start..end]` and zeros beyond. -/
def extractFrame (src : List ℝ) (start size : ℕ) : Option (List ℝ) :=
  if start ≤ src.length then
    some ((List.range size).map (fun i => src.getD (start + i) 0))
  else none

/-- The body of `extractFrame` on a valid start; the pipeline only calls
it with `start ≤ len(src)`. -/
def extractFrameRun (src : List ℝ) (start size : ℕ) : List ℝ :=
  (List.range size).map (fun i => src.getD (start + i) 0)

/-- `applyWindow`: `frame[i] *= window[i]` (both buffers have length
`FrameSize` at every call site). -/
noncomputable def applyWindow (frame window : List ℝ) : List ℝ :=
  List.zipWith (· * ·) frame window

/-- `realToComplex`: promote to complex with zero imaginary part. -/
def realToComplex (x : List ℝ) : List ℂ :=
  x.map Complex.ofReal

/-- `cmplx.Rect(r, theta) = complex(r*cos(theta), r*sin(theta))`. -/
noncomputable def rect (r theta : ℝ) : ℂ :=
  ⟨r * Real.cos theta, r * Real.sin theta⟩

/-- The zero-padding step of `Denoise`: inputs shorter than one frame are
right-padded with zeros to `FrameSize`. -/
def padTo (samples : List ℝ) : List ℝ :=
  if samples.length < FrameSize
  then samples ++ List.replicate (FrameSize - samples.length) 0
  else samples

/-- `totalFrames := (n-FrameSize)/HopSize + 1`, clamped below by 1
(the clamp is dead code once `n ≥ FrameSize`). -/
def totalFramesOf (n : ℕ) : ℕ := max ((n - FrameSize) / HopSize + 1) 1

/-- `noiseFrames := min(NoiseFrames, totalFrames)`. -/
def noiseFramesOf (n : ℕ) : ℕ := min NoiseFrames (totalFramesOf n)

/-- One analysis frame of the (padded) signal: extract, Hann-window,
promote to complex, forward FFT. -/
noncomputable def frameSpectrum (s : List ℝ) (start : ℕ) : List ℂ :=
  fftRun (realToComplex
    (applyWindow (extractFrameRun s start FrameSize) (HannWindow FrameSize)))

/-- `noiseMag[k]`: per-bin average magnitude over the first
`noiseFrames` frames. -/
noncomputable def noiseMag (s : List ℝ) (k : ℕ) : ℝ :=
  (∑ fi ∈ Finset.range (noiseFramesOf s.length),
      Complex.abs ((frameSpectrum s (fi * HopSize)).getD k 0))
    / (noiseFramesOf s.length : ℝ)

/-- Spectral subtraction of bin `k` of the frame starting at `start`:
`cleanMag = max(mag - OverSubtract*noiseMag[k], SpectralFloor*mag)`
reconstructed with the original phase. -/
noncomputable def cleanBin (s : List ℝ) (start k : ℕ) : ℂ :=
  let z := (frameSpectrum s start).getD k 0
  let mag := Complex.abs z
  let phase := Complex.arg z
  let cleanMag := mag - OverSubtract * noiseMag s k
  let floorv := SpectralFloor * mag
  rect (if cleanMag < floorv then floorv else cleanMag) phase

/-- The inverse FFT of the subtracted spectrum of one frame. -/
noncomputable def cleanedFrame (s : List ℝ) (start : ℕ) : List ℂ :=
  ifftRun ((List.range FrameSize).map (cleanBin s start))

/-- The accumulated squared synthesis window
(`windowSum[idx] += window[j]*window[j]` over all frames). -/
noncomputable def windowSumAt (n idx : ℕ) : ℝ :=
  ∑ fi ∈ Finset.range (totalFramesOf n),
    if fi * HopSize ≤ idx ∧ idx < fi * HopSize + FrameSize ∧ idx < n then
      (HannWindow FrameSize).getD (idx - fi * HopSize) 0
        * (HannWindow FrameSize).getD (idx - fi * HopSize) 0
    else 0

/-- The overlap-add accumulator
(`output[idx] += real(cleaned[j]) * window[j]` over all frames). -/
noncomputable def outputRaw (s : List ℝ) (idx : ℕ) : ℝ :=
  ∑ fi ∈ Finset.range (totalFramesOf s.length),
    if fi * HopSize ≤ idx ∧ idx < fi * HopSize + FrameSize ∧ idx < s.length then
      ((cleanedFrame s (fi * HopSize)).getD (idx - fi * HopSize) 0).re
        * (HannWindow FrameSize).getD (idx - fi * HopSize) 0
    else 0

/-- Normalization by accumulated window energy: divide where
`windowSum[i] > 1e-8`. -/
noncomputable def outputDiv (s : List ℝ) (idx : ℕ) : ℝ :=
  if windowSumAt s.length idx > 1e-8
  then outputRaw s idx / windowSumAt s.length idx
  else outputRaw s idx

/-- The peak scan of `normalize`: `peak = max |samples[i]|`, starting at 0. -/
noncomputable def peakOf (samples : List ℝ) : ℝ :=
  samples.foldl (fun p v => max p |v|) 0

/-- `normalize(samples, targetLevel)`: no-op below the silence threshold,
otherwise scale every sample by `targetLevel / peak`. -/
noncomputable def normalize (samples : List ℝ) (targetLevel : ℝ) : List ℝ :=
  if peakOf samples < 1e-10 then samples
  else samples.map (fun v => v * (targetLevel / peakOf samples))

/-- `Denoise(samples, sampleRate)`: empty input returns nil; otherwise pad,
run the two STFT passes, overlap-add, window-energy normalize, and peak
normalize to 0.95. `sampleRate` is unused by the algorithm. -/
noncomputable def Denoise (samples : List ℝ) (sampleRate : ℤ) : List ℝ :=
  if samples.length = 0 then []
  else
    normalize
      ((List.range (padTo samples).length).map
        (fun idx => outputDiv (padTo samples) idx))
      0.95

/-- An interior output index: at least one full hop from the start, inside
the buffer, and still covered by a frame that exists (`idx/HopSize` is a
valid frame number), so that exactly `FrameSize/HopSize = 2` overlapping
frames contribute to `windowSum[idx]`. -/
def Interior (n idx : ℕ) : Prop :=
  HopSize ≤ idx ∧ idx < n ∧ idx / HopSize < totalFramesOf n

/-! ## Heap model of buffers (for the frame / no-mutation claim)

Go slices live on a heap; `make` allocates a fresh buffer, index
assignment mutates a buffer in place. We model the store as two address
spaces (real and complex buffers) and re-express `FFT`, `IFFT` and
`Denoise` as heap programs whose allocations and in-place writes mirror
the source statement by statement; the values written are computed by the
functional definitions above. -/

structure Heap where
  rbufs : List (List ℝ)
  cbufs : List (List ℂ)

def Heap.getR (h : Heap) (a : ℕ) : List ℝ := h.rbufs.getD a []

def Heap.getC (h : Heap) (a : ℕ) : List ℂ := h.cbufs.getD a []

def Heap.setR (h : Heap) (a : ℕ) (v : List ℝ) : Heap :=
  ⟨h.rbufs.set a v, h.cbufs⟩

def Heap.setC (h : Heap) (a : ℕ) (v : List ℂ) : Heap :=
  ⟨h.rbufs, h.cbufs.set a v⟩

def Heap.allocR (h : Heap) (v : List ℝ) : Heap × ℕ :=
  (⟨h.rbufs ++ [v], h.cbufs⟩, h.rbufs.length)

def Heap.allocC (h : Heap) (v : List ℂ) : Heap × ℕ :=
  (⟨h.rbufs, h.cbufs ++ [v]⟩, h.cbufs.length)

/-- `FFT` over the heap: `out := make(...); copy(out, x)` (a fresh
allocation holding the input values), `bitReverse(out)` in place, then the
butterfly stages in place. Only the fresh buffer is ever written. -/
noncomputable def fftH (h : Heap) (xa : ℕ) : Heap × ℕ :=
  let p := h.allocC (h.getC xa)
  let h1 := p.1.setC p.2
    (bitRevPerm (Nat.log2 (h.getC xa).length) (p.1.getC p.2))
  let h2 := (List.range (Nat.log2 (h.getC xa).length)).foldl
    (fun hh s => hh.setC p.2 (stageList (2 ^ (s + 1)) (hh.getC p.2))) h1
  (h2, p.2)

/-- `IFFT` over the heap: allocate the conjugated copy, call `fftH` on it,
then conjugate-and-scale the result buffer in place. -/
noncomputable def ifftH (h : Heap) (Xa : ℕ) : Heap × ℕ :=
  let n := (h.getC Xa).length
  let p := h.allocC ((h.getC Xa).map (starRingEnd ℂ))
  let q := fftH p.1 p.2
  (q.1.setC q.2 ((q.1.getC q.2).map (fun z => (starRingEnd ℂ) z / (n : ℂ))),
    q.2)

/-- `noiseMag[k] += cmplx.Abs(spectrum[k])` over all bins. -/
noncomputable def accumNoise (nm : List ℝ) (spec : List ℂ) : List ℝ :=
  (List.range FrameSize).map
    (fun k => nm.getD k 0 + Complex.abs (spec.getD k 0))

/-- The spectral subtraction of one bin, reading the noise template
buffer. -/
noncomputable def subBin (noise : List ℝ) (spec : List ℂ) (k : ℕ) : ℂ :=
  let z := spec.getD k 0
  let mag := Complex.abs z
  let phase := Complex.arg z
  let cleanMag := mag - OverSubtract * noise.getD k 0
  let floorv := SpectralFloor * mag
  rect (if cleanMag < floorv then floorv else cleanMag) phase

/-- One frame of overlap-add:
`output[start+j] += real(cleaned[j]) * window[j]` for `j < FrameSize`. -/
noncomputable def overlapAdd (out : List ℝ) (cleaned : List ℂ) (w : List ℝ)
    (start : ℕ) : List ℝ :=
  (List.range out.length).map
    (fun idx => if start ≤ idx ∧ idx < start + FrameSize then
        out.getD idx 0 + (cleaned.getD (idx - start) 0).re * w.getD (idx - start) 0
      else out.getD idx 0)

/-- One frame of window-energy accumulation:
`windowSum[start+j] += window[j]*window[j]`. -/
noncomputable def windowAcc (ws w : List ℝ) (start : ℕ) : List ℝ :=
  (List.range ws.length).map
    (fun idx => if start ≤ idx ∧ idx < start + FrameSize then
        ws.getD idx 0 + w.getD (idx - start) 0 * w.getD (idx - start) 0
      else ws.getD idx 0)

/-- `output[i] /= windowSum[i]` wherever `windowSum[i] > 1e-8`. -/
noncomputable def divideWS (out ws : List ℝ) : List ℝ :=
  (List.range out.length).map
    (fun i => if ws.getD i 0 > 1e-8 then out.getD i 0 / ws.getD i 0
      else out.getD i 0)

/-- Body of the noise-estimation loop of `Denoise` over the heap:
allocate the frame, window it in place, promote it to a fresh complex
buffer, FFT, and accumulate into the noise-template buffer. -/
noncomputable def denoiseNoiseBody (saEff wa na : ℕ) (hh : Heap) (fi : ℕ) :
    Heap :=
  let pf := hh.allocR (extractFrameRun (hh.getR saEff) (fi * HopSize) FrameSize)
  let h1 := pf.1.setR pf.2 (applyWindow (pf.1.getR pf.2) (pf.1.getR wa))
  let pc := h1.allocC (realToComplex (h1.getR pf.2))
  let pr := fftH pc.1 pc.2
  pr.1.setR na (accumNoise (pr.1.getR na) (pr.1.getC pr.2))

/-- Body of the main frame loop of `Denoise` over the heap: extract and
window the frame, FFT, subtract bin by bin in place in the spectrum
buffer, inverse FFT, and overlap-add into the output and window-sum
buffers. -/
noncomputable def denoiseMainBody (saEff wa na oa wsa : ℕ) (hh : Heap)
    (fi : ℕ) : Heap :=
  let start := fi * HopSize
  let pf := hh.allocR (extractFrameRun (hh.getR saEff) start FrameSize)
  let h1 := pf.1.setR pf.2 (applyWindow (pf.1.getR pf.2) (pf.1.getR wa))
  let pc := h1.allocC (realToComplex (h1.getR pf.2))
  let pr := fftH pc.1 pc.2
  let h2 := (List.range FrameSize).foldl
    (fun hh2 k => hh2.setC pr.2
      ((hh2.getC pr.2).set k (subBin (hh2.getR na) (hh2.getC pr.2) k))) pr.1
  let pcl := ifftH h2 pr.2
  let h3 := pcl.1.setR oa
    (overlapAdd (pcl.1.getR oa) (pcl.1.getC pcl.2) (pcl.1.getR wa) start)
  h3.setR wsa (windowAcc (h3.getR wsa) (h3.getR wa) start)

/-- Everything `Denoise` does over the heap after the padding step, given
the heap and the address of the (possibly padded) sample buffer: allocate
the window and noise template, run the noise loop, average in place,
allocate output and window-sum buffers, run the main loop, divide in
place, peak-normalize in place. Returns the output buffer address. -/
noncomputable def denoiseTail (h0 : Heap) (saEff : ℕ) : Heap × ℕ :=
  let n := (h0.getR saEff).length
  let pw := h0.allocR (HannWindow FrameSize)
  let pn := pw.1.allocR (List.replicate FrameSize 0)
  let h3 := (List.range (noiseFramesOf n)).foldl
    (denoiseNoiseBody saEff pw.2 pn.2) pn.1
  let h4 := h3.setR pn.2
    ((h3.getR pn.2).map (fun v => v / (noiseFramesOf n : ℝ)))
  let po := h4.allocR (List.replicate n 0)
  let pws := po.1.allocR (List.replicate n 0)
  let h7 := (List.range (totalFramesOf n)).foldl
    (denoiseMainBody saEff pw.2 pn.2 po.2 pws.2) pws.1
  let h8 := h7.setR po.2 (divideWS (h7.getR po.2) (h7.getR pws.2))
  let h9 := h8.setR po.2 (normalize (h8.getR po.2) 0.95)
  (h9, po.2)

/-- `Denoise` over the heap. The caller's buffer at `sa` is only ever
read: padding allocates a fresh buffer, every in-place write targets a
buffer allocated by this call. -/
noncomputable def denoiseH (h : Heap) (sa : ℕ) (sampleRate : ℤ) :
    Heap × Option ℕ :=
  if (h.getR sa).length = 0 then (h, none)
  else
    let ps := if (h.getR sa).length < FrameSize
      then h.allocR (padTo (h.getR sa)) else (h, sa)
    let q := denoiseTail ps.1 ps.2
    (q.1, some q.2)

/-- The caller-buffer preservation invariant threaded through the heap
programs: the buffer at address `sa` still holds `v0`, and the real
address space has not shrunk below `n0`. -/
def HeapPresR (sa n0 : ℕ) (v0 : List ℝ) (h : Heap) : Prop :=
  h.getR sa = v0 ∧ n0 ≤ h.rbufs.length

/-! ## 16-bit PCM WAV codec (src/unnamed/part_004)

Bytes are naturals below 256; the four-character chunk tags are their
ASCII byte sequences. -/

def riffB : List ℕ := [82, 73, 70, 70]

def waveB : List ℕ := [87, 65, 86, 69]

def fmtB : List ℕ := [102, 109, 116, 32]

def dataB : List ℕ := [100, 97, 116, 97]

/-- Two little-endian bytes of a 16-bit value. -/
def le16 (v : ℕ) : List ℕ := [v % 256, v / 256 % 256]

/-- Four little-endian bytes of a 32-bit value. -/
def le32 (v : ℕ) : List ℕ :=
  [v % 256, v / 256 % 256, v / 256 ^ 2 % 256, v / 256 ^ 3 % 256]

/-- Go `uint32(v)` of a (64-bit) int. -/
def u32 (v : ℤ) : ℕ := (v % 2 ^ 32).toNat

/-- Go `uint16(v)` / the byte pattern of an `int16`. -/
def u16int (v : ℤ) : ℕ := (v % 2 ^ 16).toNat

/-- `binary.LittleEndian.Uint16` at an offset. -/
def readU16 (data : List ℕ) (pos : ℕ) : ℕ :=
  data.getD pos 0 + 256 * data.getD (pos + 1) 0

/-- `binary.LittleEndian.Uint32` at an offset. -/
def readU32 (data : List ℕ) (pos : ℕ) : ℕ :=
  data.getD pos 0 + 256 * data.getD (pos + 1) 0
    + 256 ^ 2 * data.getD (pos + 2) 0 + 256 ^ 3 * data.getD (pos + 3) 0

/-- Go `int16(uint16)`: two's-complement reinterpretation. -/
def toInt16 (u : ℕ) : ℤ := if u < 2 ^ 15 then (u : ℤ) else (u : ℤ) - 2 ^ 16

/-- Go `math.Round`: round half away from zero. -/
noncomputable def roundAway (x : ℝ) : ℤ :=
  if 0 ≤ x then ⌊x + 1 / 2⌋ else -⌊-x + 1 / 2⌋

/-- The int16 sample encoding of `WriteWAV`: clamp to [-1, 1], then
`round(s*32767)` for `s ≥ 0` and `round(s*32768)` for `s < 0`. -/
noncomputable def quantize (s : ℝ) : ℤ :=
  let c := if s > 1 then (1 : ℝ) else if s < -1 then -1 else s
  if 0 ≤ c then roundAway (c * 32767) else roundAway (c * 32768)

/-- The 44 header bytes written by `WriteWAV` before the sample data:
RIFF header, `fmt ` chunk (PCM, mono, 16-bit), `data` chunk header. -/
def wavHeader (numSamples : ℕ) (sampleRate : ℤ) : List ℕ :=
  riffB ++ le32 ((36 + numSamples * 2) % 2 ^ 32)
    ++ waveB
    ++ fmtB ++ le32 16 ++ le16 1 ++ le16 1
    ++ le32 (u32 sampleRate) ++ le32 (u32 (sampleRate * 2))
    ++ le16 2 ++ le16 16
    ++ dataB ++ le32 (numSamples * 2 % 2 ^ 32)

/-- The PCM byte stream: two little-endian bytes per quantized sample. -/
noncomputable def pcmOf (samples : List ℝ) : List ℕ :=
  (samples.map (fun s => le16 (u16int (quantize s)))).flatten

/-- `WriteWAV`: the header followed by the quantized samples. -/
noncomputable def WriteWAV (samples : List ℝ) (sampleRate : ℤ) : List ℕ :=
  wavHeader samples.length sampleRate ++ pcmOf samples

structure WAVHeader where
  sampleRate : ℤ
  numChannels : ℕ
  bitsPerSample : ℕ

/-- The chunk-walking loop of `ReadWAV`: starting at `pos`, read the tag
and declared size, handle `fmt ` (validating PCM/16-bit) and `data`
(tolerating truncation), skip unknown chunks with word alignment. -/
def walkChunks (data : List ℕ) (pos : ℕ) (hdr : Option WAVHeader)
    (pcm : Option (List ℕ)) :
    Except String (Option WAVHeader × Option (List ℕ)) :=
  if hcond : pos + 8 ≤ data.length then
    -- chunkID = data[pos:pos+4], chunkSize = Uint32(data[pos+4:pos+8]),
    -- chunkStart = pos + 8, and the next position adds the padding byte
    -- for odd-sized chunks.
    if (data.drop pos).take 4 = fmtB then
      if readU32 data (pos + 4) < 16 then .error "wav: fmt chunk too small"
      else if data.length < pos + 8 + 16 then .error "wav: fmt chunk truncated"
      else if readU16 data (pos + 8) ≠ 1 then
        .error "wav: unsupported audio format (only PCM/1 supported)"
      else if readU16 data (pos + 8 + 14) ≠ 16 then
        .error "wav: unsupported bits per sample (only 16 supported)"
      else walkChunks data
        (pos + 8 + readU32 data (pos + 4)
          + (if readU32 data (pos + 4) % 2 = 1 then 1 else 0))
        (some ⟨(readU32 data (pos + 8 + 4) : ℤ),
          readU16 data (pos + 8 + 2), readU16 data (pos + 8 + 14)⟩) pcm
    else if (data.drop pos).take 4 = dataB then
      walkChunks data
        (pos + 8 + readU32 data (pos + 4)
          + (if readU32 data (pos + 4) % 2 = 1 then 1 else 0))
        hdr
        (some ((data.drop (pos + 8)).take
          (min (pos + 8 + readU32 data (pos + 4)) data.length - (pos + 8))))
    else walkChunks data
      (pos + 8 + readU32 data (pos + 4)
        + (if readU32 data (pos + 4) % 2 = 1 then 1 else 0))
      hdr pcm
  else .ok (hdr, pcm)
termination_by data.length + 8 - pos
decreasing_by all_goals omega

/-- `ReadWAV`: validate the RIFF/WAVE header, walk the chunks, decode the
int16 samples to floats in [-1, 1], mixing stereo down to mono. -/
noncomputable def ReadWAV (data : List ℕ) : Except String (List ℝ × ℤ) :=
  if data.length < 12 then .error "wav: file too short"
  else if data.take 4 ≠ riffB then .error "wav: missing RIFF header"
  else if (data.drop 8).take 4 ≠ waveB then .error "wav: missing WAVE identifier"
  else match walkChunks data 12 none none with
    | .error e => .error e
    | .ok (none, _) => .error "wav: no fmt chunk found"
    | .ok (some _, none) => .error "wav: no data chunk found"
    | .ok (some hdr, some pcm) =>
      let numSamples := pcm.length / 2
      let raw := (List.range numSamples).map
        (fun i => ((toInt16 (readU16 pcm (i * 2)) : ℤ) : ℝ) / 32768)
      if hdr.numChannels = 2 then
        .ok ((List.range (numSamples / 2)).map
          (fun i => (raw.getD (i * 2) 0 + raw.getD (i * 2 + 1) 0) / 2),
          hdr.sampleRate)
      else .ok (raw, hdr.sampleRate)

/-! ### Power of two characterization -/

theorem isPowerOf2_two_pow (k : ℕ) : isPowerOf2 (2 ^ k) = true := by
  simp only [isPowerOf2, Bool.and_eq_true, decide_eq_true_eq]
  refine ⟨Nat.pos_pow_of_pos k (by norm_num), ?_⟩
  apply Nat.eq_of_testBit_eq
  intro i
  simp only [Nat.testBit_land, Nat.zero_testBit]
  rcases Nat.lt_or_ge i k with h | h
  · have h1 : (2 ^ k).testBit i = false :=
      Nat.testBit_two_pow_of_ne (Nat.ne_of_gt h)
    simp [h1]
  · have h0 : 0 < 2 ^ k := Nat.pos_pow_of_pos k (by norm_num)
    have h1 : (2 ^ k - 1).testBit i = false := by
      apply Nat.testBit_lt_two_pow
      have h2 : 2 ^ k ≤ 2 ^ i := Nat.pow_le_pow_right (by norm_num) h
      omega
    simp [h1]

theorem pow2_of_land_pred_eq_zero :
    ∀ n, 0 < n → n &&& (n - 1) = 0 → ∃ k, n = 2 ^ k := by
  intro n
  induction n using Nat.strong_induction_on with
  | _ n ih =>
    intro hpos hand
    rcases Nat.lt_or_ge n 2 with h2 | h2
    · interval_cases n
      exact ⟨0, rfl⟩
    · rcases Nat.even_or_odd n with ⟨m, hm⟩ | ⟨m, hm⟩
      · -- n = m + m: show m &&& (m-1) = 0 and recurse
        have hmpos : 0 < m := by omega
        have hand2 : m &&& (m - 1) = 0 := by
          apply Nat.eq_of_testBit_eq
          intro i
          have hb := congrArg (fun t => t.testBit (i + 1)) hand
          simp only [Nat.testBit_land, Nat.zero_testBit] at hb ⊢
          have e1 : n.testBit (i + 1) = m.testBit i := by
            rw [Nat.testBit_succ]
            congr 1
            omega
          have e2 : (n - 1).testBit (i + 1) = (m - 1).testBit i := by
            rw [Nat.testBit_succ]
            congr 1
            omega
          rw [e1, e2] at hb
          exact hb
        obtain ⟨k, hk⟩ := ih m (by omega) hmpos hand2
        exact ⟨k + 1, by rw [hm, hk]; ring⟩
      · -- n odd with n ≥ 2 forces m = 0: contradiction
        exfalso
        have hall : ∀ i, m.testBit i = false := by
          intro i
          have hb := congrArg (fun t => t.testBit (i + 1)) hand
          simp only [Nat.testBit_land, Nat.zero_testBit] at hb
          have e1 : n.testBit (i + 1) = m.testBit i := by
            rw [Nat.testBit_succ]
            congr 1
            omega
          have e2 : (n - 1).testBit (i + 1) = m.testBit i := by
            rw [Nat.testBit_succ]
            congr 1
            omega
          rw [e1, e2] at hb
          cases hmb : m.testBit i
          · rfl
          · rw [hmb] at hb
            simp at hb
        have hm0 : m = 0 :=
          Nat.eq_of_testBit_eq (fun i => by rw [hall i, Nat.zero_testBit])
        omega

theorem isPowerOf2_spec (n : ℕ) : isPowerOf2 n = true ↔ ∃ k, n = 2 ^ k := by
  constructor
  · intro h
    simp only [isPowerOf2, Bool.and_eq_true, decide_eq_true_eq] at h
    exact pow2_of_land_pred_eq_zero n h.1 h.2
  · rintro ⟨k, rfl⟩
    exact isPowerOf2_two_pow k

/-! ### Claim C3: when FFT fails -/

/-- C3 (counterexample): the claim says `FFT` fails with `InvalidLength`
when the input length is zero, but on the empty input (length 0) the code
returns the empty sequence without failing. -/
theorem fft_empty_no_failure :
    FFT ([] : List ℂ) = some [] ∧ ([] : List ℂ).length = 0 := by
  constructor
  · simp [FFT]
  · rfl

/-- C3 (amended): `FFT` fails (panics) exactly when its input length is
nonzero and not a power of two; in particular it does not fail on any
input whose length is a positive power of two, nor on the empty input. -/
theorem fft_failure_iff (x : List ℂ) :
    FFT x = none ↔ (x.length ≠ 0 ∧ ∀ k : ℕ, x.length ≠ 2 ^ k) := by
  unfold FFT
  rcases eq_or_ne x.length 0 with h0 | h0
  · simp [h0]
  · simp only [h0, if_false, ne_eq, not_false_iff, true_and]
    by_cases hp : isPowerOf2 x.length = true
    · simp only [hp, if_true]
      obtain ⟨k, hk⟩ := (isPowerOf2_spec _).mp hp
      constructor
      · intro h
        exact absurd h (by simp)
      · intro h
        exact absurd hk (h k)
    · simp only [Bool.not_eq_true] at hp
      simp only [hp, Bool.false_eq_true, if_false, true_iff]
      intro k hk
      rw [hk] at hp
      rw [isPowerOf2_two_pow k] at hp
      exact Bool.true_eq_false.mp hp

/-! ### Twiddle-factor identities -/

theorem wm_def_exp (m : ℕ) :
    wm m = Complex.exp (((-2 * Real.pi / m : ℝ) : ℂ) * Complex.I) := rfl

theorem wm_pow_self (m : ℕ) (hm : 0 < m) :
    wm m ^ m = 1 := by
  rw [wm, ← Complex.exp_nat_mul]
  have h : (m : ℂ) * (((-2 * Real.pi / m : ℝ) : ℂ) * Complex.I)
      = (-1 : ℤ) * (2 * Real.pi * Complex.I) := by
    have hm0 : (m : ℂ) ≠ 0 := Nat.cast_ne_zero.mpr (by omega)
    push_cast
    field_simp
    ring
  rw [h]
  exact Complex.exp_int_mul_two_pi_mul_I (-1)

theorem wm_two_mul_sq (m : ℕ) (hm : 0 < m) :
    wm (2 * m) ^ 2 = wm m := by
  rw [wm, wm, ← Complex.exp_nat_mul]
  congr 1
  have hm0 : (m : ℝ) ≠ 0 := Nat.cast_ne_zero.mpr (by omega)
  push_cast
  field_simp
  ring

theorem wm_two_mul_pow_half (m : ℕ) (hm : 0 < m) :
    wm (2 * m) ^ m = -1 := by
  rw [wm, ← Complex.exp_nat_mul]
  have h : (m : ℂ) * (((-2 * Real.pi / (2 * m : ℕ) : ℝ) : ℂ) * Complex.I)
      = -(Real.pi * Complex.I) := by
    have hm0 : (m : ℂ) ≠ 0 := Nat.cast_ne_zero.mpr (by omega)
    push_cast
    field_simp
    ring
  rw [h, Complex.exp_neg, Complex.exp_pi_mul_I]
  norm_num

/-! ### The Cooley-Tukey invariant

`fftFun A s` is the function-level view of the buffer after the
bit-reversal pass and the first `s` butterfly stages, starting from the
(function-level) input `A`. -/

noncomputable def fftFun (A : ℕ → ℂ) : ℕ → (ℕ → ℂ)
  | 0 => A
  | s + 1 => butterfly (2 ^ (s + 1)) (fftFun A s)

theorem reverseBits_lt (v : ℕ) : ∀ b, reverseBits v b < 2 ^ b := by
  induction v using Nat.strong_induction_on with
  | _ v ih =>
    intro b
    cases b with
    | zero => simp [reverseBits]
    | succ b =>
      show v % 2 * 2 ^ b + reverseBits (v / 2) b < 2 ^ (b + 1)
      have h1 : v % 2 ≤ 1 := by omega
      have h2 : reverseBits (v / 2) b < 2 ^ b := by
        rcases Nat.eq_zero_or_pos v with hv | hv
        · subst hv
          clear ih h1
          induction b with
          | zero => simp [reverseBits]
          | succ b ihb =>
            show 0 % 2 * 2 ^ b + reverseBits (0 / 2) b < 2 ^ (b + 1)
            have : (0 : ℕ) / 2 = 0 := rfl
            simp only [Nat.zero_mod, Nat.zero_mul, Nat.zero_add, this]
            calc reverseBits 0 b < 2 ^ b := ihb
              _ ≤ 2 ^ (b + 1) := Nat.pow_le_pow_right (by norm_num) (by omega)
        · exact ih (v / 2) (by omega) b
      calc v % 2 * 2 ^ b + reverseBits (v / 2) b
          ≤ 1 * 2 ^ b + reverseBits (v / 2) b :=
            Nat.add_le_add_right (Nat.mul_le_mul_right _ h1) _
        _ < 2 ^ b + 2 ^ b := by omega
        _ = 2 ^ (b + 1) := by ring

theorem reverseBits_two_mul (b c : ℕ) :
    reverseBits (2 * b) (c + 1) = reverseBits b c := by
  show 2 * b % 2 * 2 ^ c + reverseBits (2 * b / 2) c = reverseBits b c
  simp [Nat.mul_mod_right, Nat.mul_div_cancel_left b (by norm_num : 0 < 2)]

theorem reverseBits_two_mul_add_one (b c : ℕ) :
    reverseBits (2 * b + 1) (c + 1) = 2 ^ c + reverseBits b c := by
  show (2 * b + 1) % 2 * 2 ^ c + reverseBits ((2 * b + 1) / 2) c
      = 2 ^ c + reverseBits b c
  have h1 : (2 * b + 1) % 2 = 1 := by omega
  have h2 : (2 * b + 1) / 2 = b := by omega
  rw [h1, h2, Nat.one_mul]

/-- Splitting a sum over `range (2*n)` into even and odd indices. -/
theorem sum_range_even_odd (n : ℕ) (f : ℕ → ℂ) :
    ∑ t ∈ Finset.range (2 * n), f t
      = ∑ t ∈ Finset.range n, (f (2 * t) + f (2 * t + 1)) := by
  induction n with
  | zero => simp
  | succ n ihn =>
    have h : 2 * (n + 1) = (2 * n + 1) + 1 := by ring
    rw [h, Finset.sum_range_succ, Finset.sum_range_succ, ihn,
      Finset.sum_range_succ]
    ring

/-- The decimation-in-time invariant: after `s` butterfly stages over the
bit-reversed input, block `b` of size `2^s` holds the `2^s`-point DFT of
the input subsequence with stride `2^(k-s)` and offset `reverseBits b (k-s)`. -/
theorem fftFun_invariant (A : ℕ → ℂ) (k : ℕ) :
    ∀ s, s ≤ k → ∀ b r, b < 2 ^ (k - s) → r < 2 ^ s →
    fftFun (fun i => A (reverseBits i k)) s (b * 2 ^ s + r)
      = ∑ t ∈ Finset.range (2 ^ s),
          A (reverseBits b (k - s) + t * 2 ^ (k - s)) * wm (2 ^ s) ^ (r * t) := by
  intro s
  induction s with
  | zero =>
    intro _ b r _ hr
    interval_cases r
    simp [fftFun, Finset.sum_range_one]
  | succ s ihs =>
    intro hsk b r hb hr
    have hsk' : s ≤ k := by omega
    have hks : k - s = (k - (s + 1)) + 1 := by omega
    have hm2 : (2 : ℕ) ^ (s + 1) = 2 * 2 ^ s := by ring
    have hpow_pos : (0 : ℕ) < 2 ^ s := Nat.pos_pow_of_pos s (by norm_num)
    have hmod : (b * 2 ^ (s + 1) + r) % 2 ^ (s + 1) = r := by
      rw [Nat.mul_comm b, Nat.mul_add_mod, Nat.mod_eq_of_lt hr]
    have hdiv2 : (2 : ℕ) ^ (s + 1) / 2 = 2 ^ s := by
      rw [hm2]
      exact Nat.mul_div_cancel_left _ (by norm_num)
    have hw2 : wm (2 ^ (s + 1)) ^ 2 = wm (2 ^ s) := by
      rw [hm2]
      exact wm_two_mul_sq (2 ^ s) hpow_pos
    have hwhalf : wm (2 ^ (s + 1)) ^ (2 ^ s) = -1 := by
      rw [hm2]
      exact wm_two_mul_pow_half (2 ^ s) hpow_pos
    have hwself : wm (2 ^ s) ^ (2 ^ s) = 1 := wm_pow_self (2 ^ s) hpow_pos
    show butterfly (2 ^ (s + 1)) (fftFun (fun i => A (reverseBits i k)) s)
        (b * 2 ^ (s + 1) + r) = _
    rw [butterfly, hmod, hdiv2]
    rcases Nat.lt_or_ge r (2 ^ s) with hrlt | hrge
    · -- upper half of the butterfly: out[i] = u + w^r * t
      rw [if_pos hrlt]
      have hi1 : b * 2 ^ (s + 1) + r = (2 * b) * 2 ^ s + r := by ring
      have hi2 : b * 2 ^ (s + 1) + r + 2 ^ s = (2 * b + 1) * 2 ^ s + r := by ring
      have hb1 : 2 * b < 2 ^ (k - s) := by
        rw [hks, pow_succ]
        omega
      have hb2 : 2 * b + 1 < 2 ^ (k - s) := by
        rw [hks, pow_succ]
        omega
      rw [hi2, hi1, ihs hsk' (2 * b) r hb1 hrlt, ihs hsk' (2 * b + 1) r hb2 hrlt]
      rw [hm2, sum_range_even_odd, hks, reverseBits_two_mul,
        reverseBits_two_mul_add_one, Finset.mul_sum, ← Finset.sum_add_distrib]
      apply Finset.sum_congr rfl
      intro t _
      have e1 : wm (2 * 2 ^ s) ^ (r * (2 * t)) = wm (2 ^ s) ^ (r * t) := by
        rw [← hm2, show r * (2 * t) = 2 * (r * t) by ring, pow_mul, hw2]
      have e2 : wm (2 * 2 ^ s) ^ (r * (2 * t + 1))
          = wm (2 * 2 ^ s) ^ r * wm (2 ^ s) ^ (r * t) := by
        rw [← hm2, show r * (2 * t + 1) = r + 2 * (r * t) by ring, pow_add,
          pow_mul, hw2]
      have ia1 : reverseBits b (k - (s + 1)) + 2 * t * 2 ^ (k - (s + 1))
          = reverseBits b (k - (s + 1)) + t * 2 ^ (k - (s + 1) + 1) := by
        rw [pow_succ]
        ring
      have ia2 : reverseBits b (k - (s + 1)) + (2 * t + 1) * 2 ^ (k - (s + 1))
          = 2 ^ (k - (s + 1)) + reverseBits b (k - (s + 1))
            + t * 2 ^ (k - (s + 1) + 1) := by
        rw [pow_succ]
        ring
      rw [e1, e2, ia1, ia2]
      ring
    · -- lower half of the butterfly: out[i] = u - w^(r - 2^s) * t
      rw [if_neg (by omega)]
      have hrr : r = 2 ^ s + (r - 2 ^ s) := by omega
      have hr'lt : r - 2 ^ s < 2 ^ s := by
        rw [hm2] at hr
        omega
      have hbm : b * 2 ^ (s + 1) = 2 * b * 2 ^ s := by ring
      have hsum1 : (2 * b + 1) * 2 ^ s = 2 * b * 2 ^ s + 2 ^ s := by ring
      have hi1 : b * 2 ^ (s + 1) + r - 2 ^ s = 2 * b * 2 ^ s + (r - 2 ^ s) := by
        rw [hbm]
        omega
      have hi2 : b * 2 ^ (s + 1) + r = (2 * b + 1) * 2 ^ s + (r - 2 ^ s) := by
        rw [hbm, hsum1]
        omega
      have hb1 : 2 * b < 2 ^ (k - s) := by
        rw [hks, pow_succ]
        omega
      have hb2 : 2 * b + 1 < 2 ^ (k - s) := by
        rw [hks, pow_succ]
        omega
      rw [hi1, hi2, show (2 * b) * 2 ^ s = 2 * b * 2 ^ s by ring,
        ihs hsk' (2 * b) (r - 2 ^ s) hb1 hr'lt,
        ihs hsk' (2 * b + 1) (r - 2 ^ s) hb2 hr'lt]
      rw [hm2, sum_range_even_odd, hks, reverseBits_two_mul,
        reverseBits_two_mul_add_one, Finset.mul_sum, ← Finset.sum_sub_distrib]
      apply Finset.sum_congr rfl
      intro t _
      have eW2 : wm (2 * 2 ^ s) ^ (2 * (r * t)) = wm (2 ^ s) ^ (r * t) := by
        rw [← hm2, pow_mul, hw2]
      have eRT : wm (2 ^ s) ^ (r * t) = wm (2 ^ s) ^ ((r - 2 ^ s) * t) := by
        conv => lhs; rw [hrr]
        rw [add_mul, pow_add, pow_mul, hwself, one_pow, one_mul]
      have e1 : wm (2 * 2 ^ s) ^ (r * (2 * t))
          = wm (2 ^ s) ^ ((r - 2 ^ s) * t) := by
        rw [show r * (2 * t) = 2 * (r * t) by ring, eW2, eRT]
      have eHead : wm (2 * 2 ^ s) ^ r = -(wm (2 * 2 ^ s) ^ (r - 2 ^ s)) := by
        conv => lhs; rw [hrr]
        rw [pow_add, ← hm2, hwhalf]
        ring
      have e2 : wm (2 * 2 ^ s) ^ (r * (2 * t + 1))
          = -(wm (2 * 2 ^ s) ^ (r - 2 ^ s) * wm (2 ^ s) ^ ((r - 2 ^ s) * t)) := by
        rw [show r * (2 * t + 1) = r + 2 * (r * t) by ring, pow_add, eW2, eRT,
          eHead]
        ring
      have ia1 : reverseBits b (k - (s + 1)) + 2 * t * 2 ^ (k - (s + 1))
          = reverseBits b (k - (s + 1)) + t * 2 ^ (k - (s + 1) + 1) := by
        rw [pow_succ]
        ring
      have ia2 : reverseBits b (k - (s + 1)) + (2 * t + 1) * 2 ^ (k - (s + 1))
          = 2 ^ (k - (s + 1)) + reverseBits b (k - (s + 1))
            + t * 2 ^ (k - (s + 1) + 1) := by
        rw [pow_succ]
        ring
      rw [e1, e2, ia1, ia2]
      ring

/-! ### From the imperative buffer to the DFT -/

theorem range_map_getD {a : Type} (n : ℕ) (f : ℕ → a) (d : a) (i : ℕ)
    (h : i < n) : ((List.range n).map f).getD i d = f i := by
  rw [List.getD_eq_getElem _ _ (by simpa using h)]
  simp

theorem stageList_length (m : ℕ) (x : List ℂ) :
    (stageList m x).length = x.length := by
  simp [stageList]

theorem stageList_getD (m : ℕ) (x : List ℂ) (i : ℕ) (hi : i < x.length) :
    (stageList m x).getD i 0 = butterfly m (fun j => x.getD j 0) i :=
  range_map_getD _ _ _ _ hi

theorem bitRevPerm_length (k : ℕ) (x : List ℂ) :
    (bitRevPerm k x).length = x.length := by
  simp [bitRevPerm]

theorem bitRevPerm_getD (k : ℕ) (x : List ℂ) (i : ℕ) (hi : i < x.length) :
    (bitRevPerm k x).getD i 0 = x.getD (reverseBits i k) 0 :=
  range_map_getD _ _ _ _ hi

theorem block_read_lt (m c i : ℕ) (hm : 0 < m) (hi : i < m * c)
    (hr : i % m < m / 2) : i + m / 2 < m * c := by
  have hdm := Nat.div_add_mod i m
  have h2 : m / 2 * 2 ≤ m := Nat.div_mul_le_self m 2
  have hq1 : i / m < c := by
    apply (Nat.div_lt_iff_lt_mul hm).mpr
    calc i < m * c := hi
      _ = c * m := Nat.mul_comm m c
  have hq2 : m * (i / m + 1) ≤ m * c := Nat.mul_le_mul_left m hq1
  have h3 : m * (i / m + 1) = m * (i / m) + m := by ring
  omega

theorem butterfly_congr (m c : ℕ) (hm : 0 < m) (A B : ℕ → ℂ)
    (h : ∀ j, j < m * c → A j = B j) (i : ℕ) (hi : i < m * c) :
    butterfly m A i = butterfly m B i := by
  unfold butterfly
  rcases Nat.lt_or_ge (i % m) (m / 2) with hb | hb
  · rw [if_pos hb, h i hi, h (i + m / 2) (block_read_lt m c i hm hi hb),
      if_pos hb]
  · rw [if_neg (by omega), h i hi, h (i - m / 2) (by omega)]
    rw [if_neg (by omega)]

theorem stages_spec (A : ℕ → ℂ) (k : ℕ) (y : List ℂ) (hy : y.length = 2 ^ k)
    (hagree : ∀ i, i < 2 ^ k → y.getD i 0 = A i) :
    ∀ s, s ≤ k →
      ((List.range s).foldl (fun acc t => stageList (2 ^ (t + 1)) acc) y).length
          = 2 ^ k ∧
      ∀ i, i < 2 ^ k →
        ((List.range s).foldl (fun acc t => stageList (2 ^ (t + 1)) acc) y).getD i 0
          = fftFun A s i := by
  intro s
  induction s with
  | zero =>
    intro _
    exact ⟨hy, fun i hi => by simpa [fftFun] using hagree i hi⟩
  | succ s ihs =>
    intro hsk
    obtain ⟨hlen, hget⟩ := ihs (by omega)
    rw [List.range_succ, List.foldl_append]
    set prev := (List.range s).foldl (fun acc t => stageList (2 ^ (t + 1)) acc) y
    constructor
    · simpa [stageList_length] using hlen
    · intro i hi
      have hi' : i < prev.length := by omega
      rw [show List.foldl (fun acc t => stageList (2 ^ (t + 1)) acc) prev [s]
            = stageList (2 ^ (s + 1)) prev from rfl]
      rw [stageList_getD _ _ _ hi']
      have hsplit : (2 : ℕ) ^ k = 2 ^ (s + 1) * 2 ^ (k - (s + 1)) := by
        rw [← pow_add]
        congr 1
        omega
      show butterfly (2 ^ (s + 1)) (fun j => prev.getD j 0) i = fftFun A (s + 1) i
      rw [butterfly_congr (2 ^ (s + 1)) (2 ^ (k - (s + 1)))
        (Nat.pos_pow_of_pos _ (by norm_num)) (fun j => prev.getD j 0) (fftFun A s)
        (fun j hj => hget j (by rw [hsplit]; exact hj)) i (by rw [← hsplit]; exact hi)]
      rfl

theorem fftRun_dft (x : List ℂ) (k : ℕ) (hx : x.length = 2 ^ k) :
    (fftRun x).length = 2 ^ k ∧ ∀ i, i < 2 ^ k →
      (fftRun x).getD i 0
        = ∑ j ∈ Finset.range (2 ^ k), x.getD j 0 * wm (2 ^ k) ^ (i * j) := by
  have hlog : Nat.log2 x.length = k := by
    rw [hx, Nat.log2_eq_log_two, Nat.log_pow (by norm_num)]
  have hylen : (bitRevPerm k x).length = 2 ^ k := by
    rw [bitRevPerm_length, hx]
  have hagree : ∀ i, i < 2 ^ k →
      (bitRevPerm k x).getD i 0 = x.getD (reverseBits i k) 0 := by
    intro i hi
    exact bitRevPerm_getD k x i (by omega)
  obtain ⟨hlen, hget⟩ := stages_spec (fun j => x.getD (reverseBits j k) 0) k
    (bitRevPerm k x) hylen hagree k (le_refl k)
  constructor
  · rw [fftRun, hlog]
    exact hlen
  · intro i hi
    rw [fftRun, hlog, hget i hi]
    have hinv := fftFun_invariant (fun t => x.getD t 0) k k (le_refl k) 0 i
      (by simp) hi
    simp only [Nat.zero_mul, Nat.zero_add, Nat.sub_self, pow_zero,
      Nat.mul_one] at hinv
    rw [show (fun j => x.getD (reverseBits j k) 0)
          = (fun i => (fun t => x.getD t 0) (reverseBits i k)) from rfl]
    rw [hinv]
    apply Finset.sum_congr rfl
    intro t _
    rw [show reverseBits 0 0 + t = t from by simp [reverseBits]]

/-! ### Roots of unity and the inverse transform -/

theorem wm_conj (n : ℕ) :
    (starRingEnd ℂ) (wm n)
      = Complex.exp (((2 * Real.pi / n : ℝ) : ℂ) * Complex.I) := by
  rw [wm, ← Complex.exp_conj]
  congr 1
  rw [map_mul, Complex.conj_I, Complex.conj_ofReal]
  push_cast
  ring

theorem conj_wm_mul_wm (n : ℕ) : (starRingEnd ℂ) (wm n) * wm n = 1 := by
  rw [wm_conj, wm, ← Complex.exp_add]
  rw [show ((2 * Real.pi / n : ℝ) : ℂ) * Complex.I
      + ((-2 * Real.pi / n : ℝ) : ℂ) * Complex.I = 0 by push_cast; ring]
  exact Complex.exp_zero

theorem isPrimitiveRoot_conj_wm (n : ℕ) (hn : 0 < n) :
    IsPrimitiveRoot ((starRingEnd ℂ) (wm n)) n := by
  rw [wm_conj]
  rw [show ((2 * Real.pi / n : ℝ) : ℂ) * Complex.I
      = 2 * Real.pi * Complex.I / n by push_cast; ring]
  exact Complex.isPrimitiveRoot_exp n (by omega)

theorem conj_wm_pow_self (n : ℕ) (hn : 0 < n) :
    ((starRingEnd ℂ) (wm n)) ^ n = 1 := by
  rw [← map_pow, wm_pow_self n hn, map_one]

theorem wm_pow_ne_one (n : ℕ) (hn : 0 < n) (l : ℕ) (hl0 : 0 < l) (hln : l < n) :
    wm n ^ l ≠ 1 := by
  intro h
  have h2 : ((starRingEnd ℂ) (wm n)) ^ l = 1 := by
    rw [← map_pow, h, map_one]
  exact (isPrimitiveRoot_conj_wm n hn).pow_ne_one_of_pos_of_lt hl0 hln h2

theorem conj_wm_pow_ne_one (n : ℕ) (hn : 0 < n) (l : ℕ) (hl0 : 0 < l)
    (hln : l < n) : ((starRingEnd ℂ) (wm n)) ^ l ≠ 1 :=
  (isPrimitiveRoot_conj_wm n hn).pow_ne_one_of_pos_of_lt hl0 hln

/-- Orthogonality of the discrete Fourier basis, in the exact form produced
by composing the forward pass with the conjugated forward pass. -/
theorem zeta_geom_sum (n : ℕ) (hn : 0 < n) (i t : ℕ) (hi : i < n) (ht : t < n) :
    ∑ j ∈ Finset.range n, (wm n ^ t * ((starRingEnd ℂ) (wm n)) ^ i) ^ j
      = if t = i then (n : ℂ) else 0 := by
  set z := wm n ^ t * ((starRingEnd ℂ) (wm n)) ^ i with hz
  rcases eq_or_ne t i with hti | hti
  · subst hti
    have hz1 : z = 1 := by
      rw [hz, ← mul_pow, mul_comm, conj_wm_mul_wm, one_pow]
    rw [if_pos rfl, hz1]
    simp
  · rw [if_neg hti]
    have hzn : z ^ n = 1 := by
      rw [hz, mul_pow, ← pow_mul, ← pow_mul,
        show t * n = n * t by ring, show i * n = n * i by ring,
        pow_mul, pow_mul, wm_pow_self n hn, conj_wm_pow_self n hn]
      simp
    have hz1 : z ≠ 1 := by
      rcases Nat.lt_or_ge t i with hlt | hge
      · -- z = conj(wm)^(i-t)
        have hsplit : ((starRingEnd ℂ) (wm n)) ^ i
            = ((starRingEnd ℂ) (wm n)) ^ t * ((starRingEnd ℂ) (wm n)) ^ (i - t) := by
          rw [← pow_add]
          congr 1
          omega
        have hzz : z = ((starRingEnd ℂ) (wm n)) ^ (i - t) := by
          rw [hz, hsplit, ← mul_assoc, ← mul_pow, mul_comm (wm n),
            conj_wm_mul_wm, one_pow, one_mul]
        rw [hzz]
        exact conj_wm_pow_ne_one n hn (i - t) (by omega) (by omega)
      · -- z = wm^(t-i)
        have hlt : i < t := by omega
        have hsplit : wm n ^ t = wm n ^ (t - i) * wm n ^ i := by
          rw [← pow_add]
          congr 1
          omega
        have hzz : z = wm n ^ (t - i) := by
          rw [hz, hsplit, mul_assoc, ← mul_pow, mul_comm (wm n),
            conj_wm_mul_wm, one_pow, mul_one]
        rw [hzz]
        exact wm_pow_ne_one n hn (t - i) (by omega) (by omega)
    rw [geom_sum_eq hz1, hzn]
    simp

theorem map_getD {a b : Type} (f : a → b) (l : List a) (i : ℕ)
    (hi : i < l.length) (d : b) (d2 : a) :
    (l.map f).getD i d = f (l.getD i d2) := by
  rw [List.getD_eq_getElem _ _ (by simpa using hi), List.getD_eq_getElem _ _ hi]
  simp

theorem FFT_pow2 (x : List ℂ) (k : ℕ) (hx : x.length = 2 ^ k) :
    FFT x = some (fftRun x) := by
  have h0 : x.length ≠ 0 := by
    have := Nat.pos_pow_of_pos k (show 0 < 2 by norm_num)
    omega
  have hp : isPowerOf2 x.length = true := by
    rw [hx]
    exact isPowerOf2_two_pow k
  rw [FFT, if_neg h0, if_pos hp]

theorem IFFT_pow2 (X : List ℂ) (k : ℕ) (hX : X.length = 2 ^ k) :
    IFFT X = some (ifftRun X) := by
  have h0 : X.length ≠ 0 := by
    have := Nat.pos_pow_of_pos k (show 0 < 2 by norm_num)
    omega
  rw [IFFT, if_neg h0, FFT_pow2 (X.map (starRingEnd ℂ)) k (by simpa using hX)]
  rfl

theorem ifftRun_length (X : List ℂ) (k : ℕ) (hX : X.length = 2 ^ k) :
    (ifftRun X).length = 2 ^ k := by
  rw [ifftRun, List.length_map,
    (fftRun_dft (X.map (starRingEnd ℂ)) k (by simpa using hX)).1]

/-- Exact inversion: over exact arithmetic, `ifftRun (fftRun x)` recovers
`x` exactly on every index, for any power-of-two length. -/
theorem roundtrip_exact (x : List ℂ) (k : ℕ) (hx : x.length = 2 ^ k) :
    ∀ i, i < 2 ^ k → (ifftRun (fftRun x)).getD i 0 = x.getD i 0 := by
  intro i hi
  have hn : 0 < 2 ^ k := Nat.pos_pow_of_pos k (by norm_num)
  obtain ⟨hXlen, hXget⟩ := fftRun_dft x k hx
  obtain ⟨hYlen, hYget⟩ :=
    fftRun_dft ((fftRun x).map (starRingEnd ℂ)) k (by simpa using hXlen)
  have hout : (ifftRun (fftRun x)).getD i 0
      = (starRingEnd ℂ)
          ((fftRun ((fftRun x).map (starRingEnd ℂ))).getD i 0)
        / ((fftRun x).length : ℂ) := by
    rw [ifftRun]
    exact map_getD _ _ _ (by rw [hYlen]; exact hi) 0 0
  rw [hout, hYget i hi, hXlen]
  have key : (starRingEnd ℂ)
      (∑ j ∈ Finset.range (2 ^ k),
        ((fftRun x).map (starRingEnd ℂ)).getD j 0 * wm (2 ^ k) ^ (i * j))
      = x.getD i 0 * ((2 ^ k : ℕ) : ℂ) := by
    rw [map_sum]
    have step1 : ∀ j ∈ Finset.range (2 ^ k),
        (starRingEnd ℂ)
          (((fftRun x).map (starRingEnd ℂ)).getD j 0 * wm (2 ^ k) ^ (i * j))
        = (∑ t ∈ Finset.range (2 ^ k),
            x.getD t 0 * wm (2 ^ k) ^ (j * t))
          * ((starRingEnd ℂ) (wm (2 ^ k))) ^ (i * j) := by
      intro j hj
      have hjlt : j < 2 ^ k := Finset.mem_range.mp hj
      rw [map_mul, map_getD (starRingEnd ℂ) (fftRun x) j (by omega) 0 0,
        Complex.conj_conj, map_pow, hXget j hjlt]
    rw [Finset.sum_congr rfl step1]
    have step2 : ∀ j ∈ Finset.range (2 ^ k),
        (∑ t ∈ Finset.range (2 ^ k), x.getD t 0 * wm (2 ^ k) ^ (j * t))
          * ((starRingEnd ℂ) (wm (2 ^ k))) ^ (i * j)
        = ∑ t ∈ Finset.range (2 ^ k),
            x.getD t 0 * (wm (2 ^ k) ^ t * ((starRingEnd ℂ) (wm (2 ^ k))) ^ i) ^ j := by
      intro j _
      rw [Finset.sum_mul]
      apply Finset.sum_congr rfl
      intro t _
      rw [mul_pow, ← pow_mul, ← pow_mul,
        show t * j = j * t by ring, show i * j = i * j from rfl]
      ring
    rw [Finset.sum_congr rfl step2, Finset.sum_comm]
    have step3 : ∀ t ∈ Finset.range (2 ^ k),
        (∑ j ∈ Finset.range (2 ^ k),
          x.getD t 0 * (wm (2 ^ k) ^ t * ((starRingEnd ℂ) (wm (2 ^ k))) ^ i) ^ j)
        = if t = i then x.getD t 0 * ((2 ^ k : ℕ) : ℂ) else 0 := by
      intro t ht
      rw [← Finset.mul_sum,
        zeta_geom_sum (2 ^ k) hn i t hi (Finset.mem_range.mp ht)]
      rcases eq_or_ne t i with h | h
      · rw [if_pos h, if_pos h]
      · rw [if_neg h, if_neg h, mul_zero]
    rw [Finset.sum_congr rfl step3, Finset.sum_ite_eq' (Finset.range (2 ^ k))]
    rw [if_pos (Finset.mem_range.mpr hi)]
  rw [key]
  have hne : ((2 ^ k : ℕ) : ℂ) ≠ 0 := Nat.cast_ne_zero.mpr (by omega)
  rw [mul_div_assoc, div_self hne, mul_one]

/-- C5: for every complex sequence of length `2^k`, `k ∈ [1, 12]`,
`IFFT (FFT x)` succeeds and recovers `x` within `1e-9` per coordinate
(exactly, in exact arithmetic). -/
theorem fft_ifft_roundtrip (x : List ℂ) (k : ℕ) (h1 : 1 ≤ k) (h2 : k ≤ 12)
    (hx : x.length = 2 ^ k) :
    ∃ X y, FFT x = some X ∧ IFFT X = some y ∧
      ∀ i, i < x.length → Complex.abs (y.getD i 0 - x.getD i 0) ≤ 1e-9 := by
  have hXlen : (fftRun x).length = 2 ^ k := (fftRun_dft x k hx).1
  refine ⟨fftRun x, ifftRun (fftRun x), FFT_pow2 x k hx,
    IFFT_pow2 (fftRun x) k hXlen, ?_⟩
  intro i hi
  rw [roundtrip_exact x k hx i (by omega)]
  simp only [sub_self, map_zero]
  norm_num

/-- C5 (witness): the round trip at the concrete input `[1, I]`, `k = 1`. -/
theorem fft_ifft_roundtrip_witness :
    ∃ X y, FFT [1, Complex.I] = some X ∧ IFFT X = some y ∧
      ∀ i, i < ([1, Complex.I] : List ℂ).length →
        Complex.abs (y.getD i 0 - ([1, Complex.I] : List ℂ).getD i 0) ≤ 1e-9 :=
  fft_ifft_roundtrip [1, Complex.I] 1 (by norm_num) (by norm_num) (by norm_num)

/-! ### Lengths and rate-independence (claims C2, C9) -/

theorem padTo_length (samples : List ℝ) :
    (padTo samples).length = max samples.length FrameSize := by
  rw [padTo]
  rcases Nat.lt_or_ge samples.length FrameSize with h | h
  · rw [if_pos h]
    simp
    omega
  · rw [if_neg (by omega)]
    omega

theorem normalize_length (samples : List ℝ) (t : ℝ) :
    (normalize samples t).length = samples.length := by
  rw [normalize]
  rcases lt_or_ge (peakOf samples) 1e-10 with h | h
  · rw [if_pos h]
  · rw [if_neg (by linarith)]
    simp

/-- C2: the output length of `Denoise` is the input length for inputs of
at least one frame, `FrameSize` for shorter nonempty inputs, and the
output is empty for empty input. -/
theorem Denoise_length (samples : List ℝ) (r : ℤ) :
    (FrameSize ≤ samples.length →
      (Denoise samples r).length = samples.length)
    ∧ (0 < samples.length → samples.length < FrameSize →
      (Denoise samples r).length = FrameSize)
    ∧ (samples.length = 0 → Denoise samples r = []) := by
  refine ⟨?_, ?_, ?_⟩
  · intro h
    rw [Denoise, if_neg (by simp only [FrameSize] at h; omega),
      normalize_length, List.length_map, List.length_range, padTo_length]
    omega
  · intro h1 h2
    rw [Denoise, if_neg (by omega), normalize_length, List.length_map,
      List.length_range, padTo_length]
    omega
  · intro h
    rw [Denoise, if_pos h]

/-- C2 (witness): a full frame of ones keeps its length 2048. -/
theorem Denoise_length_witness :
    (Denoise (List.replicate 2048 (1 : ℝ)) 44100).length = 2048 := by
  have h := (Denoise_length (List.replicate 2048 (1 : ℝ)) 44100).1
    (by rw [List.length_replicate]; norm_num [FrameSize])
  rwa [List.length_replicate] at h

/-- C9: the `sampleRate` argument never influences the result of
`Denoise`. -/
theorem Denoise_rate_independent (samples : List ℝ) (r1 r2 : ℤ) :
    Denoise samples r1 = Denoise samples r2 := rfl

/-! ### Frame extraction (claim C7) -/

/-- C7 (counterexample): the claim quantifies over every `start ≥ 0`, but
for `start = 1` past the end of the empty source buffer the Go slice
expression `src[start:end]` has `start > end` and panics instead of
returning a zero frame. -/
theorem extractFrame_fails_past_end :
    extractFrame [] 1 1 = none := by
  rw [extractFrame, if_neg]
  simp

/-- C7 (amended): whenever `start ≤ len(src)` (as at every call site of
the pipeline), `extractFrame` succeeds with a buffer of length `size`
whose element `i` is `src[start+i]` while in range and `0` beyond the end
of `src`. -/
theorem extractFrame_spec (src : List ℝ) (start size : ℕ)
    (h : start ≤ src.length) :
    ∃ frame, extractFrame src start size = some frame ∧
      frame.length = size ∧
      (∀ i, i < size → start + i < src.length →
        frame.getD i 0 = src.getD (start + i) 0) ∧
      (∀ i, i < size → src.length ≤ start + i → frame.getD i 0 = 0) := by
  refine ⟨extractFrameRun src start size, ?_, ?_, ?_, ?_⟩
  · rw [extractFrame, if_pos h]
    rfl
  · simp [extractFrameRun]
  · intro i hi _
    exact range_map_getD size _ 0 i hi
  · intro i hi hout
    rw [extractFrameRun, range_map_getD size _ 0 i hi,
      List.getD_eq_default _ _ hout]

/-- C7 (witness): extraction at `start = 1`, `size = 2` from `[5]`. -/
theorem extractFrame_spec_witness :
    ∃ frame, extractFrame [(5 : ℝ)] 1 2 = some frame ∧
      frame.length = 2 ∧
      (∀ i, i < 2 → 1 + i < ([(5 : ℝ)] : List ℝ).length →
        frame.getD i 0 = ([(5 : ℝ)] : List ℝ).getD (1 + i) 0) ∧
      (∀ i, i < 2 → ([(5 : ℝ)] : List ℝ).length ≤ 1 + i →
        frame.getD i 0 = 0) :=
  extractFrame_spec [(5 : ℝ)] 1 2 (by simp)

/-! ### Peak normalization (claim C6) -/

theorem foldl_max_ge_init (l : List ℝ) :
    ∀ a : ℝ, a ≤ l.foldl (fun p v => max p |v|) a := by
  induction l with
  | nil => intro a; exact le_refl a
  | cons v l ihl =>
    intro a
    calc a ≤ max a |v| := le_max_left a _
      _ ≤ l.foldl (fun p v => max p |v|) (max a |v|) := ihl _

theorem foldl_max_ge_mem (l : List ℝ) :
    ∀ a : ℝ, ∀ x ∈ l, |x| ≤ l.foldl (fun p v => max p |v|) a := by
  induction l with
  | nil => intro a x hx; exact absurd hx (List.not_mem_nil x)
  | cons v l ihl =>
    intro a x hx
    rcases List.mem_cons.mp hx with h | h
    · subst h
      calc |x| ≤ max a |x| := le_max_right a _
        _ ≤ l.foldl (fun p v => max p |v|) (max a |x|) := foldl_max_ge_init l _
    · exact ihl (max a |v|) x h

theorem foldl_max_attained (l : List ℝ) :
    ∀ a : ℝ, l.foldl (fun p v => max p |v|) a = a
      ∨ ∃ x ∈ l, l.foldl (fun p v => max p |v|) a = |x| := by
  induction l with
  | nil => intro a; exact Or.inl rfl
  | cons v l ihl =>
    intro a
    rcases ihl (max a |v|) with h | ⟨x, hx, hfx⟩
    · rcases max_cases a |v| with ⟨hm, _⟩ | ⟨hm, _⟩
      · exact Or.inl (by rw [List.foldl_cons, h, hm])
      · exact Or.inr ⟨v, List.mem_cons_self v l, by rw [List.foldl_cons, h, hm]⟩
    · exact Or.inr ⟨x, List.mem_cons_of_mem v hx, by rw [List.foldl_cons, hfx]⟩

theorem foldl_max_scale (l : List ℝ) (g : ℝ) (hg : 0 ≤ g) :
    ∀ a : ℝ, (l.map (fun v => v * g)).foldl (fun p v => max p |v|) (a * g)
      = l.foldl (fun p v => max p |v|) a * g := by
  induction l with
  | nil => intro a; rfl
  | cons v l ihl =>
    intro a
    rw [List.map_cons, List.foldl_cons, List.foldl_cons]
    rw [abs_mul, abs_of_nonneg hg, ← max_mul_of_nonneg a |v| hg]
    exact ihl (max a |v|)

theorem peakOf_nonneg (l : List ℝ) : 0 ≤ peakOf l :=
  foldl_max_ge_init l 0

theorem abs_le_peakOf (l : List ℝ) (x : ℝ) (hx : x ∈ l) : |x| ≤ peakOf l :=
  foldl_max_ge_mem l 0 x hx

theorem peakOf_scale (l : List ℝ) (g : ℝ) (hg : 0 ≤ g) :
    peakOf (l.map (fun v => v * g)) = peakOf l * g := by
  have h := foldl_max_scale l g hg 0
  rw [zero_mul] at h
  exact h

/-- C6: peak normalization leaves near-silent buffers unchanged; otherwise
it scales every sample by `target/peak` so that the peak becomes exactly
the target; consequently every sample returned by `Denoise` has absolute
value at most 0.95. -/
theorem normalize_spec (l : List ℝ) (t : ℝ) (ht : 0 ≤ t) (s : List ℝ)
    (r : ℤ) :
    (peakOf l < 1e-10 → normalize l t = l)
    ∧ (1e-10 ≤ peakOf l →
        normalize l t = l.map (fun v => v * (t / peakOf l))
        ∧ peakOf (normalize l t) = t)
    ∧ (∀ x ∈ Denoise s r, |x| ≤ 0.95) := by
  have habs : ∀ (u : List ℝ) (tt : ℝ), 0 ≤ tt → ∀ x ∈ normalize u tt, |x| ≤ max tt 1e-10 := by
    intro u tt htt x hx
    rw [normalize] at hx
    rcases lt_or_ge (peakOf u) 1e-10 with hp | hp
    · rw [if_pos hp] at hx
      calc |x| ≤ peakOf u := abs_le_peakOf u x hx
        _ ≤ 1e-10 := le_of_lt hp
        _ ≤ max tt 1e-10 := le_max_right _ _
    · rw [if_neg (by linarith)] at hx
      obtain ⟨v, hv, hvx⟩ := List.mem_map.mp hx
      have hppos : 0 < peakOf u := by linarith [hp]
      have hgain : 0 ≤ tt / peakOf u := div_nonneg htt (le_of_lt hppos)
      calc |x| = |v| * (tt / peakOf u) := by
            rw [← hvx, abs_mul, abs_of_nonneg hgain]
        _ ≤ peakOf u * (tt / peakOf u) :=
            mul_le_mul_of_nonneg_right (abs_le_peakOf u v hv) hgain
        _ = tt := by field_simp
        _ ≤ max tt 1e-10 := le_max_left _ _
  refine ⟨?_, ?_, ?_⟩
  · intro h
    rw [normalize, if_pos h]
  · intro h
    have hppos : 0 < peakOf l := by linarith
    have heq : normalize l t = l.map (fun v => v * (t / peakOf l)) := by
      rw [normalize, if_neg (by linarith)]
    refine ⟨heq, ?_⟩
    rw [heq, peakOf_scale l (t / peakOf l) (div_nonneg ht (le_of_lt hppos))]
    field_simp
  · intro x hx
    rw [Denoise] at hx
    rcases eq_or_ne s.length 0 with h0 | h0
    · rw [if_pos h0] at hx
      exact absurd hx (List.not_mem_nil x)
    · rw [if_neg h0] at hx
      have := habs _ 0.95 (by norm_num) x hx
      calc |x| ≤ max 0.95 1e-10 := this
        _ = 0.95 := by norm_num
        _ ≤ 0.95 := le_refl _

/-- C6 (witness): concrete instance at `l = [2]`, `t = 0.95`. -/
theorem normalize_spec_witness :
    normalize [(2 : ℝ)] 0.95
      = ([(2 : ℝ)] : List ℝ).map (fun v => v * (0.95 / peakOf [(2 : ℝ)]))
    ∧ peakOf (normalize [(2 : ℝ)] 0.95) = 0.95 := by
  have hpk : peakOf [(2 : ℝ)] = 2 := by
    rw [peakOf, List.foldl_cons, List.foldl_nil]
    rw [abs_of_nonneg (by norm_num : (0 : ℝ) ≤ 2)]
    norm_num
  exact (normalize_spec [(2 : ℝ)] 0.95 (by norm_num) [] 0).2.1
    (by rw [hpk]; norm_num)

/-! ### Silence preservation (claim C4) -/

theorem getD_replicate {a : Type} (n i : ℕ) (d : a) :
    (List.replicate n d).getD i d = d := by
  rcases Nat.lt_or_ge i n with h | h
  · rw [List.getD_eq_getElem _ _ (by simpa using h)]
    simp
  · exact List.getD_eq_default _ _ (by simpa using h)

theorem hannWindow_length (n : ℕ) (h : 1 < n) : (HannWindow n).length = n := by
  rw [HannWindow, if_neg (by omega)]
  simp

theorem zipWith_mul_getD (l1 l2 : List ℝ) (i : ℕ)
    (hi : i < (List.zipWith (fun x y => x * y) l1 l2).length) :
    (List.zipWith (fun x y => x * y) l1 l2).getD i 0
      = l1.getD i 0 * l2.getD i 0 := by
  rw [List.length_zipWith] at hi
  rw [List.getD_eq_getElem _ _ (by rw [List.length_zipWith]; exact hi),
    List.getElem_zipWith,
    List.getD_eq_getElem _ _ (by omega), List.getD_eq_getElem _ _ (by omega)]

theorem frameLen (s : List ℝ) (start : ℕ) :
    (realToComplex
      (applyWindow (extractFrameRun s start FrameSize) (HannWindow FrameSize))).length
      = FrameSize := by
  rw [realToComplex, List.length_map, applyWindow, List.length_zipWith,
    extractFrameRun, List.length_map, List.length_range,
    hannWindow_length FrameSize (by norm_num [FrameSize])]
  simp

theorem two_pow_eleven : (2 : ℕ) ^ 11 = FrameSize := by norm_num [FrameSize]

theorem frameSpectrum_length (s : List ℝ) (start : ℕ) :
    (frameSpectrum s start).length = FrameSize := by
  rw [frameSpectrum,
    (fftRun_dft _ 11 (by rw [frameLen, two_pow_eleven])).1, two_pow_eleven]

theorem frameSpectrum_zero (n' start k : ℕ) :
    (frameSpectrum (List.replicate n' 0) start).getD k 0 = 0 := by
  have hzero : ∀ j,
      (realToComplex (applyWindow
        (extractFrameRun (List.replicate n' 0) start FrameSize)
        (HannWindow FrameSize))).getD j 0 = 0 := by
    intro j
    rcases Nat.lt_or_ge j FrameSize with hj | hj
    · rw [realToComplex, map_getD _ _ j (by
        have := frameLen (List.replicate n' (0 : ℝ)) start
        rw [realToComplex, List.length_map] at this
        omega) 0 0]
      rw [applyWindow, zipWith_mul_getD _ _ j (by
        have := frameLen (List.replicate n' (0 : ℝ)) start
        rw [realToComplex, List.length_map] at this
        rw [applyWindow] at this
        omega)]
      rw [extractFrameRun, range_map_getD FrameSize _ 0 j hj, getD_replicate]
      norm_num
    · exact List.getD_eq_default _ _ (by
        have := frameLen (List.replicate n' (0 : ℝ)) start
        omega)
  rcases Nat.lt_or_ge k FrameSize with hk | hk
  · rw [frameSpectrum,
      (fftRun_dft _ 11 (by rw [frameLen, two_pow_eleven])).2 k
        (by rw [two_pow_eleven]; exact hk)]
    apply Finset.sum_eq_zero
    intro j _
    rw [hzero j, zero_mul]
  · exact List.getD_eq_default _ _ (by rw [frameSpectrum_length]; omega)

theorem noiseMag_replicate_zero (n' k : ℕ) :
    noiseMag (List.replicate n' 0) k = 0 := by
  rw [noiseMag]
  rw [Finset.sum_eq_zero]
  · exact zero_div _
  · intro fi _
    rw [frameSpectrum_zero]
    exact map_zero Complex.abs

theorem cleanBin_zero (n' start k : ℕ) :
    cleanBin (List.replicate n' 0) start k = 0 := by
  rw [cleanBin, frameSpectrum_zero, noiseMag_replicate_zero]
  simp only [map_zero, mul_zero, sub_zero, zero_sub]
  rw [if_neg (by norm_num), rect]
  simp [Complex.ext_iff]

theorem cleanedFrame_zero (n' start j : ℕ) :
    (cleanedFrame (List.replicate n' 0) start).getD j 0 = 0 := by
  have hlen : ((List.range FrameSize).map (cleanBin (List.replicate n' 0) start)).length
      = FrameSize := by simp
  have hspec : ∀ t, ((List.range FrameSize).map
      (cleanBin (List.replicate n' 0) start)).getD t 0 = 0 := by
    intro t
    rcases Nat.lt_or_ge t FrameSize with ht | ht
    · rw [range_map_getD FrameSize _ 0 t ht, cleanBin_zero]
    · exact List.getD_eq_default _ _ (by omega)
  have hconjlen : (((List.range FrameSize).map
      (cleanBin (List.replicate n' 0) start)).map (starRingEnd ℂ)).length
      = 2 ^ 11 := by
    rw [List.length_map, hlen, two_pow_eleven]
  rcases Nat.lt_or_ge j FrameSize with hj | hj
  · rw [cleanedFrame, ifftRun,
      map_getD _ _ j (by rw [(fftRun_dft _ 11 hconjlen).1, two_pow_eleven]; exact hj) 0 0]
    rw [(fftRun_dft _ 11 hconjlen).2 j (by rw [two_pow_eleven]; exact hj)]
    rw [Finset.sum_eq_zero]
    · simp
    · intro t _
      rcases Nat.lt_or_ge t FrameSize with ht2 | ht2
      · rw [map_getD (starRingEnd ℂ) _ t (by omega) 0 0, hspec t, map_zero,
          zero_mul]
      · rw [List.getD_eq_default _ _ (by rw [List.length_map]; omega), zero_mul]
  · refine List.getD_eq_default _ _ ?_
    rw [cleanedFrame, ifftRun, List.length_map, (fftRun_dft _ 11 hconjlen).1,
      two_pow_eleven]
    omega

theorem outputDiv_replicate_zero (n' idx : ℕ) :
    outputDiv (List.replicate n' 0) idx = 0 := by
  have hraw : outputRaw (List.replicate n' 0) idx = 0 := by
    rw [outputRaw, Finset.sum_eq_zero]
    intro fi _
    rcases Classical.em (fi * HopSize ≤ idx ∧ idx < fi * HopSize + FrameSize
        ∧ idx < (List.replicate n' (0 : ℝ)).length) with hc | hc
    · rw [if_pos hc, cleanedFrame_zero]
      simp
    · rw [if_neg hc]
  rw [outputDiv, hraw]
  rcases Classical.em (windowSumAt (List.replicate n' (0 : ℝ)).length idx > 1e-8) with h | h
  · rw [if_pos h, zero_div]
  · rw [if_neg h]

theorem peakOf_replicate_zero (n : ℕ) : peakOf (List.replicate n (0 : ℝ)) = 0 := by
  induction n with
  | zero => rfl
  | succ n ihn =>
    rw [List.replicate_succ, peakOf, List.foldl_cons]
    rw [show max (0 : ℝ) |(0 : ℝ)| = 0 by simp]
    exact ihn

/-- C4 (counterexample): the claim quantifies over every N, but at N = 0
the code returns the empty sequence, not `zeros(max(0, FrameSize)) =
zeros(2048)`. -/
theorem Denoise_silence_empty :
    Denoise (List.replicate 0 (0 : ℝ)) 44100
      ≠ List.replicate (max 0 FrameSize) (0 : ℝ) := by
  intro h
  have h1 : Denoise (List.replicate 0 (0 : ℝ)) 44100 = [] := by
    rw [Denoise,
      if_pos (show (List.replicate 0 (0 : ℝ)).length = 0 from rfl)]
  rw [h1] at h
  have h2 := congrArg List.length h
  rw [List.length_replicate] at h2
  simp [FrameSize] at h2

/-- C4 (amended): for every N ≥ 1, `Denoise` maps the all-zero sequence of
length N to exactly the all-zero sequence of length `max N FrameSize`
(hence every output sample is within 1e-12 of zero); for N = 0 the output
is empty. -/
theorem Denoise_silence (N : ℕ) (hN : 0 < N) (r : ℤ) :
    Denoise (List.replicate N 0) r = List.replicate (max N FrameSize) 0
    ∧ (∀ x ∈ Denoise (List.replicate N 0) r, |x| ≤ 1e-12)
    ∧ Denoise (List.replicate 0 (0 : ℝ)) r = [] := by
  have hpad : padTo (List.replicate N (0 : ℝ))
      = List.replicate (max N FrameSize) 0 := by
    rw [padTo]
    rcases Nat.lt_or_ge (List.replicate N (0 : ℝ)).length FrameSize with h | h
    · rw [if_pos h, List.length_replicate, ← List.replicate_add]
      congr 1
      rw [List.length_replicate] at h
      omega
    · rw [if_neg (by omega)]
      rw [List.length_replicate] at h
      congr 1
      omega
  have hmain : Denoise (List.replicate N 0) r
      = List.replicate (max N FrameSize) 0 := by
    rw [Denoise, if_neg (by rw [List.length_replicate]; omega), hpad]
    have hmap : (List.range (List.replicate (max N FrameSize) (0 : ℝ)).length).map
        (fun idx => outputDiv (List.replicate (max N FrameSize) 0) idx)
        = List.replicate (max N FrameSize) (0 : ℝ) := by
      rw [List.length_replicate]
      rw [List.map_congr_left (fun i _ =>
        outputDiv_replicate_zero (max N FrameSize) i)]
      simp [List.map_const]
    rw [hmap, normalize, if_pos (by rw [peakOf_replicate_zero]; norm_num)]
  refine ⟨hmain, ?_, by
    rw [Denoise, if_pos (show (List.replicate 0 (0 : ℝ)).length = 0 from rfl)]⟩
  intro x hx
  rw [hmain] at hx
  have := List.eq_of_mem_replicate hx
  rw [this]
  norm_num

/-- C4 (witness): the amended claim at `N = 1`. -/
theorem Denoise_silence_witness :
    Denoise (List.replicate 1 0) 44100
      = List.replicate (max 1 FrameSize) 0
    ∧ (∀ x ∈ Denoise (List.replicate 1 0) 44100, |x| ≤ 1e-12) := by
  have h := Denoise_silence 1 (by norm_num) 44100
  exact ⟨h.1, h.2.1⟩

/-! ### The accumulated squared window (claim C1) -/

theorem hannWindow_getD (n i : ℕ) (h1 : 1 < n) (h2 : i < n) :
    (HannWindow n).getD i 0
      = 0.5 * (1 - Real.cos (2 * Real.pi * (i : ℝ) / ((n - 1 : ℕ) : ℝ))) := by
  rw [HannWindow, if_neg (by omega), range_map_getD n _ 0 i h2]

/-- At an interior index exactly the two frames `idx/HopSize - 1` and
`idx/HopSize` contribute, with in-frame offsets `idx % HopSize + HopSize`
and `idx % HopSize`. -/
theorem windowSumAt_interior (n idx : ℕ) (h : Interior n idx) :
    windowSumAt n idx
      = (HannWindow FrameSize).getD (idx % HopSize + HopSize) 0
          * (HannWindow FrameSize).getD (idx % HopSize + HopSize) 0
        + (HannWindow FrameSize).getD (idx % HopSize) 0
          * (HannWindow FrameSize).getD (idx % HopSize) 0 := by
  obtain ⟨h1, h2, h3⟩ := h
  have hH : HopSize = 1024 := rfl
  have hF : FrameSize = 2048 := rfl
  have hdm := Nat.div_add_mod idx HopSize
  have hmlt : idx % HopSize < HopSize := Nat.mod_lt _ (by rw [hH]; norm_num)
  have hq1 : 1 ≤ idx / HopSize := by
    rw [Nat.le_div_iff_mul_le (by rw [hH]; norm_num)]
    omega
  rw [windowSumAt]
  have hsub : ({idx / HopSize - 1, idx / HopSize} : Finset ℕ)
      ⊆ Finset.range (totalFramesOf n) := by
    intro x hx
    simp only [Finset.mem_insert, Finset.mem_singleton] at hx
    rcases hx with hx | hx <;> (rw [Finset.mem_range]; omega)
  have hzero : ∀ fi ∈ Finset.range (totalFramesOf n),
      fi ∉ ({idx / HopSize - 1, idx / HopSize} : Finset ℕ) →
      (if fi * HopSize ≤ idx ∧ idx < fi * HopSize + FrameSize ∧ idx < n then
        (HannWindow FrameSize).getD (idx - fi * HopSize) 0
          * (HannWindow FrameSize).getD (idx - fi * HopSize) 0
      else 0) = 0 := by
    intro fi _ hfi
    simp only [Finset.mem_insert, Finset.mem_singleton, not_or] at hfi
    rw [if_neg]
    rintro ⟨c1, c2, _⟩
    rw [hH] at c1 c2 hdm hmlt hq1 hfi
    rw [hF] at c2
    omega
  rw [← Finset.sum_subset hsub hzero]
  rw [Finset.sum_pair (by omega)]
  have e1 : idx - (idx / HopSize - 1) * HopSize = idx % HopSize + HopSize := by
    rw [hH] at hdm hmlt hq1 ⊢
    have hmul : (idx / 1024 - 1) * 1024 = 1024 * (idx / 1024) - 1024 := by
      rw [Nat.sub_mul]
      ring_nf
    omega
  have e2 : idx - idx / HopSize * HopSize = idx % HopSize := by
    rw [hH] at hdm ⊢
    have hmul : idx / 1024 * 1024 = 1024 * (idx / 1024) := by ring
    omega
  have hc1 : (idx / HopSize - 1) * HopSize ≤ idx
      ∧ idx < (idx / HopSize - 1) * HopSize + FrameSize ∧ idx < n := by
    rw [hH, hF]
    rw [hH] at hdm hmlt hq1
    have hmul : (idx / 1024 - 1) * 1024 = 1024 * (idx / 1024) - 1024 := by
      rw [Nat.sub_mul]
      ring_nf
    omega
  have hc2 : idx / HopSize * HopSize ≤ idx
      ∧ idx < idx / HopSize * HopSize + FrameSize ∧ idx < n := by
    rw [hH, hF]
    rw [hH] at hdm hmlt
    have hmul : idx / 1024 * 1024 = 1024 * (idx / 1024) := by ring
    omega
  rw [if_pos hc1, if_pos hc2, e1, e2]

theorem abs_cos_sub_cos_le (x y : ℝ) :
    |Real.cos x - Real.cos y| ≤ |x - y| := by
  rw [Real.cos_sub_cos, abs_mul, abs_mul]
  have h1 : |Real.sin ((x + y) / 2)| ≤ 1 :=
    abs_le.mpr ⟨Real.neg_one_le_sin _, Real.sin_le_one _⟩
  have h2 : |Real.sin ((x - y) / 2)| ≤ |(x - y) / 2| := Real.abs_sin_le_abs
  have h3 : |(x - y) / 2| = |x - y| / 2 := by
    rw [abs_div]
    norm_num
  have h4 : |(-2 : ℝ)| = 2 := by norm_num
  rw [h3] at h2
  rw [h4]
  calc 2 * |Real.sin ((x + y) / 2)| * |Real.sin ((x - y) / 2)|
      ≤ 2 * (1 * (|x - y| / 2)) := by
        rw [mul_assoc]
        apply mul_le_mul_of_nonneg_left _ (by norm_num)
        exact mul_le_mul h1 h2 (abs_nonneg _) (by norm_num)
    _ = |x - y| := by ring

/-- C1 (counterexample): the claim asserts `windowSum` equals
`0.5 * FrameSize / HopSize = 1.0` within `1e-9` at every interior index,
but at the interior index 1536 of a 4096-sample signal the value is about
0.4992 — the squared Hann window at 50% hop does not satisfy COLA. -/
theorem windowSum_not_cola :
    Interior 4096 1536 ∧ ¬ (|windowSumAt 4096 1536 - 1| ≤ 1e-9) := by
  have hint : Interior 4096 1536 := ⟨by decide, by decide, by decide⟩
  refine ⟨hint, ?_⟩
  rw [windowSumAt_interior 4096 1536 hint]
  rw [show (1536 : ℕ) % HopSize + HopSize = 1536 from rfl,
    show (1536 : ℕ) % HopSize = 512 from rfl]
  rw [hannWindow_getD FrameSize 1536 (by norm_num [FrameSize]) (by norm_num [FrameSize]),
    hannWindow_getD FrameSize 512 (by norm_num [FrameSize]) (by norm_num [FrameSize])]
  rw [show ((FrameSize - 1 : ℕ) : ℝ) = 2047 by norm_num [FrameSize]]
  have hpi := Real.pi_pos
  have hpi2 := Real.pi_lt_d2
  -- the two window arguments in closed form
  have hid1 : 2 * Real.pi * ((512 : ℕ) : ℝ) / 2047
      = Real.pi / 4094 + Real.pi / 2 := by
    push_cast
    ring
  have hid2 : 2 * Real.pi * ((1536 : ℕ) : ℝ) / 2047
      = 3 * Real.pi / 4094 + Real.pi / 2 + Real.pi := by
    push_cast
    ring
  rw [hid1, hid2, Real.cos_add_pi, Real.cos_add_pi_div_two,
    Real.cos_add_pi_div_two]
  have hs1a : Real.sin (Real.pi / 4094) ≤ Real.pi / 4094 :=
    Real.sin_le (by positivity)
  have hs1b : 0 ≤ Real.sin (Real.pi / 4094) :=
    Real.sin_nonneg_of_nonneg_of_le_pi (by positivity) (by nlinarith)
  have hs2b : 0 ≤ Real.sin (3 * Real.pi / 4094) :=
    Real.sin_nonneg_of_nonneg_of_le_pi (by positivity) (by nlinarith)
  have hs2c : Real.sin (3 * Real.pi / 4094) ≤ 1 := Real.sin_le_one _
  intro habs
  rw [abs_le] at habs
  have h1 : Real.sin (Real.pi / 4094) ≤ 0.0008 := by linarith
  nlinarith [habs.1, h1, hs1a, hs1b, hs2b, hs2c]

/-- C1 (amended): at every interior index the accumulated squared-window
sum is not the constant `0.5 * FrameSize / HopSize = 1.0`; it equals the
sum of the two overlapping squared Hann values and lies between 0.499 and
1.002 (it oscillates between about 0.5 and 1.0 across the hop). -/
theorem windowSumAt_interior_bounds (n idx : ℕ) (h : Interior n idx) :
    0.499 ≤ windowSumAt n idx ∧ windowSumAt n idx ≤ 1.002 := by
  rw [windowSumAt_interior n idx h]
  have hmlt : idx % HopSize < 1024 := Nat.mod_lt _ (by norm_num [HopSize, FrameSize])
  set j := idx % HopSize with hj
  have hji : j < 1024 := hmlt
  rw [hannWindow_getD FrameSize (j + HopSize) (by norm_num [FrameSize])
      (by rw [show HopSize = 1024 from rfl]; norm_num [FrameSize]; omega),
    hannWindow_getD FrameSize j (by norm_num [FrameSize])
      (by norm_num [FrameSize]; omega)]
  rw [show ((FrameSize - 1 : ℕ) : ℝ) = 2047 by norm_num [FrameSize]]
  have hpi := Real.pi_pos
  have hpi2 := Real.pi_lt_d2
  have hcast : ((j + HopSize : ℕ) : ℝ) = (j : ℝ) + 1024 := by
    rw [show HopSize = 1024 from rfl]
    push_cast
    ring
  rw [hcast]
  set α := 2 * Real.pi * (j : ℝ) / 2047 with hα
  have hβ : 2 * Real.pi * ((j : ℝ) + 1024) / 2047
      = (α + Real.pi / 2047) + Real.pi := by
    rw [hα]
    ring
  rw [hβ, Real.cos_add_pi]
  -- Lipschitz comparison of cos(α + π/2047) with cos α
  have hlip : |Real.cos (α + Real.pi / 2047) - Real.cos α|
      ≤ Real.pi / 2047 := by
    calc |Real.cos (α + Real.pi / 2047) - Real.cos α|
        ≤ |(α + Real.pi / 2047) - α| := abs_cos_sub_cos_le _ _
      _ = Real.pi / 2047 := by
          rw [show (α + Real.pi / 2047) - α = Real.pi / 2047 by ring]
          rw [abs_of_nonneg (by positivity)]
  have hc1 : Real.cos α ≤ 1 := Real.cos_le_one α
  have hc2 : -1 ≤ Real.cos α := Real.neg_one_le_cos α
  have hc3 : Real.cos (α + Real.pi / 2047) ≤ 1 := Real.cos_le_one _
  have hc4 : -1 ≤ Real.cos (α + Real.pi / 2047) := Real.neg_one_le_cos _
  have hd : Real.pi / 2047 ≤ 0.00154 := by linarith
  have habs := abs_le.mp hlip
  have hvu1 : Real.cos (α + Real.pi / 2047) - Real.cos α ≤ 0.00154 :=
    le_trans habs.2 hd
  have hvu2 : -0.00154 ≤ Real.cos (α + Real.pi / 2047) - Real.cos α := by
    have := habs.1
    linarith
  constructor
  · nlinarith [sq_nonneg (Real.cos α), sq_nonneg (Real.cos (α + Real.pi / 2047)),
      hvu2]
  · nlinarith [hc1, hc2, hc3, hc4, hvu1]

/-- C1 (witness): the amended bounds at the interior index 1536 of a
4096-sample signal. -/
theorem windowSumAt_interior_bounds_witness :
    0.499 ≤ windowSumAt 4096 1536 ∧ windowSumAt 4096 1536 ≤ 1.002 :=
  windowSumAt_interior_bounds 4096 1536 ⟨by decide, by decide, by decide⟩

/-! ### No mutation of inputs (claim C8) -/

theorem getD_set_ne {a : Type} (l : List a) (i j : ℕ) (v d : a)
    (hij : i ≠ j) : (l.set i v).getD j d = l.getD j d := by
  rw [List.getD_eq_getElem?_getD, List.getD_eq_getElem?_getD,
    List.getElem?_set_ne hij]

theorem foldl_invariant {A B : Type} (f : A → B → A) (P : A → Prop)
    (hf : ∀ a b, P a → P (f a b)) :
    ∀ (L : List B) (a : A), P a → P (L.foldl f a) := by
  intro L
  induction L with
  | nil => intro a ha; exact ha
  | cons b L ihl =>
    intro a ha
    exact ihl _ (hf a b ha)

/-- The heap FFT only writes the freshly allocated output buffer: the
real address space is untouched, addresses below the old complex top are
untouched, and exactly one complex buffer is added. -/
theorem fftH_spec (h : Heap) (xa : ℕ) :
    (fftH h xa).1.rbufs = h.rbufs
    ∧ (fftH h xa).1.cbufs.length = h.cbufs.length + 1
    ∧ (fftH h xa).2 = h.cbufs.length
    ∧ ∀ b, b < h.cbufs.length → (fftH h xa).1.getC b = h.getC b := by
  have main := foldl_invariant
    (fun hh s => hh.setC h.cbufs.length
      (stageList (2 ^ (s + 1)) (hh.getC h.cbufs.length)))
    (fun hh => hh.rbufs = h.rbufs
      ∧ hh.cbufs.length = h.cbufs.length + 1
      ∧ ∀ b, b < h.cbufs.length → hh.getC b = h.getC b)
    (by
      rintro hh s ⟨p1, p2, p3⟩
      refine ⟨p1, ?_, ?_⟩
      · show (hh.cbufs.set h.cbufs.length _).length = h.cbufs.length + 1
        rw [List.length_set]
        exact p2
      · intro b hb
        show (hh.cbufs.set h.cbufs.length _).getD b [] = h.getC b
        rw [getD_set_ne _ _ _ _ _ (by omega)]
        exact p3 b hb)
    (List.range (Nat.log2 (h.getC xa).length))
    ((h.allocC (h.getC xa)).1.setC (h.allocC (h.getC xa)).2
      (bitRevPerm (Nat.log2 (h.getC xa).length)
        ((h.allocC (h.getC xa)).1.getC (h.allocC (h.getC xa)).2)))
    (by
      refine ⟨rfl, ?_, ?_⟩
      · show ((h.cbufs ++ [h.getC xa]).set h.cbufs.length _).length
            = h.cbufs.length + 1
        rw [List.length_set, List.length_append]
        rfl
      · intro b hb
        show ((h.cbufs ++ [h.getC xa]).set h.cbufs.length _).getD b []
            = h.getC b
        rw [getD_set_ne _ _ _ _ _ (by omega)]
        exact List.getD_append _ _ _ _ hb)
  exact ⟨main.1, main.2.1, rfl, main.2.2⟩

/-- The heap IFFT adds two complex buffers and writes only those. -/
theorem ifftH_spec (h : Heap) (Xa : ℕ) :
    (ifftH h Xa).1.rbufs = h.rbufs
    ∧ ∀ b, b < h.cbufs.length → (ifftH h Xa).1.getC b = h.getC b := by
  obtain ⟨f1, f2, f3, f4⟩ :=
    fftH_spec (h.allocC ((h.getC Xa).map (starRingEnd ℂ))).1
      (h.allocC ((h.getC Xa).map (starRingEnd ℂ))).2
  have halloc : ((h.allocC ((h.getC Xa).map (starRingEnd ℂ))).1).cbufs.length
      = h.cbufs.length + 1 := by
    show (h.cbufs ++ [_]).length = h.cbufs.length + 1
    rw [List.length_append]
    rfl
  constructor
  · show ((fftH _ _).1.setC (fftH _ _).2 _).rbufs = h.rbufs
    show (fftH _ _).1.rbufs = h.rbufs
    rw [f1]
    rfl
  · intro b hb
    show ((fftH _ _).1.setC (fftH _ _).2 _).getC b = h.getC b
    show ((fftH _ _).1.cbufs.set (fftH _ _).2 _).getD b [] = h.getC b
    rw [f3, getD_set_ne _ _ _ _ _ (by omega)]
    have hstep := f4 b (by omega)
    show (fftH _ _).1.getC b = h.getC b
    rw [hstep]
    show (h.cbufs ++ [_]).getD b [] = h.getC b
    exact List.getD_append _ _ _ _ hb

theorem presR_setR {sa n0 : ℕ} {v0 : List ℝ} {h : Heap} {b : ℕ}
    {v : List ℝ} (hb : b ≠ sa) (hp : HeapPresR sa n0 v0 h) :
    HeapPresR sa n0 v0 (h.setR b v) := by
  obtain ⟨p1, p2⟩ := hp
  constructor
  · show (h.rbufs.set b v).getD sa [] = v0
    rw [getD_set_ne _ _ _ _ _ hb]
    exact p1
  · show n0 ≤ (h.rbufs.set b v).length
    rw [List.length_set]
    exact p2

theorem presR_setC {sa n0 : ℕ} {v0 : List ℝ} {h : Heap} {b : ℕ}
    {v : List ℂ} (hp : HeapPresR sa n0 v0 h) :
    HeapPresR sa n0 v0 (h.setC b v) := hp

theorem presR_allocR {sa n0 : ℕ} {v0 : List ℝ} {h : Heap} {v : List ℝ}
    (hsa : sa < n0) (hp : HeapPresR sa n0 v0 h) :
    HeapPresR sa n0 v0 (h.allocR v).1 := by
  obtain ⟨p1, p2⟩ := hp
  constructor
  · show (h.rbufs ++ [v]).getD sa [] = v0
    rw [List.getD_append _ _ _ _ (by omega)]
    exact p1
  · show n0 ≤ (h.rbufs ++ [v]).length
    rw [List.length_append]
    omega

theorem presR_allocC {sa n0 : ℕ} {v0 : List ℝ} {h : Heap} {v : List ℂ}
    (hp : HeapPresR sa n0 v0 h) :
    HeapPresR sa n0 v0 (h.allocC v).1 := hp

theorem presR_fftH {sa n0 : ℕ} {v0 : List ℝ} {h : Heap} {xa : ℕ}
    (hp : HeapPresR sa n0 v0 h) :
    HeapPresR sa n0 v0 (fftH h xa).1 := by
  obtain ⟨p1, p2⟩ := hp
  have hr := (fftH_spec h xa).1
  constructor
  · show (fftH h xa).1.rbufs.getD sa [] = v0
    rw [hr]
    exact p1
  · show n0 ≤ (fftH h xa).1.rbufs.length
    rw [hr]
    exact p2

theorem presR_ifftH {sa n0 : ℕ} {v0 : List ℝ} {h : Heap} {Xa : ℕ}
    (hp : HeapPresR sa n0 v0 h) :
    HeapPresR sa n0 v0 (ifftH h Xa).1 := by
  obtain ⟨p1, p2⟩ := hp
  have hr := (ifftH_spec h Xa).1
  constructor
  · show (ifftH h Xa).1.rbufs.getD sa [] = v0
    rw [hr]
    exact p1
  · show n0 ≤ (ifftH h Xa).1.rbufs.length
    rw [hr]
    exact p2

theorem noiseBody_pres {sa n0 : ℕ} {v0 : List ℝ} (saEff wa na : ℕ)
    (hsa : sa < n0) (hna : na ≠ sa) :
    ∀ (hh : Heap) (fi : ℕ), HeapPresR sa n0 v0 hh →
      HeapPresR sa n0 v0 (denoiseNoiseBody saEff wa na hh fi) := by
  intro hh fi hp
  have hfresh : hh.rbufs.length ≠ sa := by
    have := hp.2
    omega
  simp only [denoiseNoiseBody]
  apply presR_setR hna
  apply presR_fftH
  apply presR_allocC
  apply presR_setR (show (hh.allocR _).2 ≠ sa from hfresh)
  exact presR_allocR hsa hp

theorem mainBody_pres {sa n0 : ℕ} {v0 : List ℝ} (saEff wa na oa wsa : ℕ)
    (hsa : sa < n0) (hoa : oa ≠ sa) (hwsa : wsa ≠ sa) :
    ∀ (hh : Heap) (fi : ℕ), HeapPresR sa n0 v0 hh →
      HeapPresR sa n0 v0 (denoiseMainBody saEff wa na oa wsa hh fi) := by
  intro hh fi hp
  have hfresh : hh.rbufs.length ≠ sa := by
    have := hp.2
    omega
  simp only [denoiseMainBody]
  apply presR_setR hwsa
  apply presR_setR hoa
  apply presR_ifftH
  refine foldl_invariant _ _ (fun a k hpa => presR_setC hpa) _ _ ?_
  apply presR_fftH
  apply presR_allocC
  apply presR_setR (show (hh.allocR _).2 ≠ sa from hfresh)
  exact presR_allocR hsa hp

theorem denoiseTail_pres (h0 : Heap) (saEff sa n0 : ℕ) (v0 : List ℝ)
    (hsa : sa < n0) (hp : HeapPresR sa n0 v0 h0) :
    HeapPresR sa n0 v0 (denoiseTail h0 saEff).1 := by
  simp only [denoiseTail]
  set p1 := h0.allocR (HannWindow FrameSize) with hp1
  have h1p : HeapPresR sa n0 v0 p1.1 := presR_allocR hsa hp
  set p2 := p1.1.allocR (List.replicate FrameSize 0) with hp2
  have h2p : HeapPresR sa n0 v0 p2.1 := presR_allocR hsa h1p
  have hna : p2.2 ≠ sa := by
    have hle : n0 ≤ p1.1.rbufs.length := h1p.2
    have he : p2.2 = p1.1.rbufs.length := by rw [hp2]; rfl
    omega
  set h3 := (List.range (noiseFramesOf (h0.getR saEff).length)).foldl
    (denoiseNoiseBody saEff p1.2 p2.2) p2.1 with hh3
  have h3p : HeapPresR sa n0 v0 h3 := by
    rw [hh3]
    exact foldl_invariant _ _ (noiseBody_pres saEff p1.2 p2.2 hsa hna) _ _ h2p
  set h4 := h3.setR p2.2 ((h3.getR p2.2).map
    (fun v => v / (noiseFramesOf (h0.getR saEff).length : ℝ))) with hh4
  have h4p : HeapPresR sa n0 v0 h4 := by
    rw [hh4]
    exact presR_setR hna h3p
  set po := h4.allocR (List.replicate (h0.getR saEff).length 0) with hpo
  have hpop : HeapPresR sa n0 v0 po.1 := presR_allocR hsa h4p
  have hoa : po.2 ≠ sa := by
    have hle : n0 ≤ h4.rbufs.length := h4p.2
    have he : po.2 = h4.rbufs.length := by rw [hpo]; rfl
    omega
  set pws := po.1.allocR (List.replicate (h0.getR saEff).length 0) with hpws
  have hpwsp : HeapPresR sa n0 v0 pws.1 := presR_allocR hsa hpop
  have hwsa : pws.2 ≠ sa := by
    have hle : n0 ≤ po.1.rbufs.length := hpop.2
    have he : pws.2 = po.1.rbufs.length := by rw [hpws]; rfl
    omega
  set h7 := (List.range (totalFramesOf (h0.getR saEff).length)).foldl
    (denoiseMainBody saEff p1.2 p2.2 po.2 pws.2) pws.1 with hh7
  have h7p : HeapPresR sa n0 v0 h7 := by
    rw [hh7]
    exact foldl_invariant _ _
      (mainBody_pres saEff p1.2 p2.2 po.2 pws.2 hsa hoa hwsa) _ _ hpwsp
  exact presR_setR hoa (presR_setR hoa h7p)

/-- C8: `FFT`, `IFFT` and `Denoise`, run over the heap, leave the
caller's input buffer exactly as it was. -/
theorem no_mutation (h : Heap) (xa sa : ℕ) (r : ℤ)
    (hx : xa < h.cbufs.length) (hs : sa < h.rbufs.length) :
    (fftH h xa).1.getC xa = h.getC xa
    ∧ (ifftH h xa).1.getC xa = h.getC xa
    ∧ (denoiseH h sa r).1.getR sa = h.getR sa := by
  refine ⟨(fftH_spec h xa).2.2.2 xa hx, (ifftH_spec h xa).2 xa hx, ?_⟩
  rw [denoiseH]
  rcases eq_or_ne (h.getR sa).length 0 with h0 | h0
  · rw [if_pos h0]
  · rw [if_neg h0]
    rcases Nat.lt_or_ge (h.getR sa).length FrameSize with hlt | hge
    · rw [if_pos hlt]
      have hbase : HeapPresR sa h.rbufs.length (h.getR sa)
          (h.allocR (padTo (h.getR sa))).1 :=
        presR_allocR hs ⟨rfl, le_refl _⟩
      exact (denoiseTail_pres _ _ sa h.rbufs.length (h.getR sa) hs hbase).1
    · rw [if_neg (by omega)]
      exact (denoiseTail_pres h sa sa h.rbufs.length (h.getR sa) hs
        ⟨rfl, le_refl _⟩).1

/-- C8 (witness): the three no-mutation facts at a concrete one-buffer
heap. -/
theorem no_mutation_witness :
    (fftH ⟨[[(2 : ℝ)]], [[(3 : ℂ)]]⟩ 0).1.getC 0
        = (⟨[[(2 : ℝ)]], [[(3 : ℂ)]]⟩ : Heap).getC 0
    ∧ (ifftH ⟨[[(2 : ℝ)]], [[(3 : ℂ)]]⟩ 0).1.getC 0
        = (⟨[[(2 : ℝ)]], [[(3 : ℂ)]]⟩ : Heap).getC 0
    ∧ (denoiseH ⟨[[(2 : ℝ)]], [[(3 : ℂ)]]⟩ 0 44100).1.getR 0
        = (⟨[[(2 : ℝ)]], [[(3 : ℂ)]]⟩ : Heap).getR 0 :=
  no_mutation ⟨[[(2 : ℝ)]], [[(3 : ℂ)]]⟩ 0 0 44100 (by norm_num) (by norm_num)

/-! ### WAV round trip (claim C10) -/

theorem u32_lt (v : ℤ) : u32 v < 2 ^ 32 := by
  unfold u32
  omega

theorem u16int_lt (v : ℤ) : u16int v < 2 ^ 16 := by
  unfold u16int
  omega

theorem toInt16_u16int (q : ℤ) (h1 : -(2 ^ 15) ≤ q) (h2 : q < 2 ^ 15) :
    toInt16 (u16int q) = q := by
  unfold toInt16 u16int
  split <;> omega

theorem roundAway_err (x : ℝ) : |((roundAway x : ℤ) : ℝ) - x| ≤ 1 / 2 := by
  unfold roundAway
  rcases le_or_lt 0 x with h | h
  · rw [if_pos h]
    have h1 := Int.floor_le (x + 1 / 2)
    have h2 := Int.lt_floor_add_one (x + 1 / 2)
    rw [abs_le]
    constructor <;> [skip; skip] <;> push_cast at * <;> linarith
  · rw [if_neg (not_le.mpr h)]
    have h1 := Int.floor_le (-x + 1 / 2)
    have h2 := Int.lt_floor_add_one (-x + 1 / 2)
    rw [abs_le]
    constructor <;> [skip; skip] <;> push_cast at * <;> linarith

theorem quantize_range (s : ℝ) (hs : |s| ≤ 1) :
    -(2 ^ 15) ≤ quantize s ∧ quantize s < 2 ^ 15 := by
  obtain ⟨hls, hus⟩ := abs_le.mp hs
  unfold quantize
  simp only [if_neg (not_lt.mpr hus), if_neg (not_lt.mpr hls)]
  rcases le_or_lt 0 s with h | h
  · rw [if_pos h]
    unfold roundAway
    rw [if_pos (by nlinarith)]
    constructor
    · have : (0 : ℤ) ≤ ⌊s * 32767 + 1 / 2⌋ := by
        rw [Int.le_floor]
        push_cast
        nlinarith
      omega
    · have : ⌊s * 32767 + 1 / 2⌋ < 32768 := by
        rw [Int.floor_lt]
        push_cast
        nlinarith
      omega
  · rw [if_neg (not_le.mpr h)]
    unfold roundAway
    rw [if_neg (by nlinarith)]
    have hnn : (0 : ℤ) ≤ ⌊-(s * 32768) + 1 / 2⌋ := by
      rw [Int.le_floor]
      push_cast
      nlinarith
    have hub : ⌊-(s * 32768) + 1 / 2⌋ < 32769 := by
      rw [Int.floor_lt]
      push_cast
      nlinarith
    constructor
    · omega
    · omega

theorem quantize_err (s : ℝ) (hs : |s| ≤ 1) :
    |((quantize s : ℤ) : ℝ) / 32768 - s| ≤ 0.001 := by
  obtain ⟨hls, hus⟩ := abs_le.mp hs
  unfold quantize
  simp only [if_neg (not_lt.mpr hus), if_neg (not_lt.mpr hls)]
  rcases le_or_lt 0 s with h | h
  · rw [if_pos h]
    obtain ⟨he1, he2⟩ := abs_le.mp (roundAway_err (s * 32767))
    have key : ((roundAway (s * 32767) : ℤ) : ℝ) / 32768 - s
        = (((roundAway (s * 32767) : ℤ) : ℝ) - 32768 * s) / 32768 := by
      ring
    rw [key, abs_div, abs_of_pos (by norm_num : (0 : ℝ) < 32768)]
    rw [div_le_iff₀ (by norm_num : (0 : ℝ) < 32768)]
    have habs : |((roundAway (s * 32767) : ℤ) : ℝ) - 32768 * s| ≤ 1.5 := by
      rw [abs_le]
      constructor <;> linarith
    linarith
  · rw [if_neg (not_le.mpr h)]
    obtain ⟨he1, he2⟩ := abs_le.mp (roundAway_err (s * 32768))
    have key : ((roundAway (s * 32768) : ℤ) : ℝ) / 32768 - s
        = (((roundAway (s * 32768) : ℤ) : ℝ) - s * 32768) / 32768 := by
      ring
    rw [key, abs_div, abs_of_pos (by norm_num : (0 : ℝ) < 32768)]
    rw [div_le_iff₀ (by norm_num : (0 : ℝ) < 32768)]
    have habs : |((roundAway (s * 32768) : ℤ) : ℝ) - s * 32768| ≤ 1 / 2 := by
      rw [abs_le]
      constructor <;> linarith
    linarith

theorem pcmOf_length (s : List ℝ) : (pcmOf s).length = 2 * s.length := by
  unfold pcmOf
  induction s with
  | nil => rfl
  | cons x t ih =>
    rw [List.map_cons, List.flatten_cons, List.length_append, ih,
      show (le16 (u16int (quantize x))).length = 2 from rfl, List.length_cons]
    omega

theorem pcmOf_cons (x : ℝ) (t : List ℝ) :
    pcmOf (x :: t)
      = u16int (quantize x) % 256
        :: u16int (quantize x) / 256 % 256 :: pcmOf t := by
  rw [pcmOf, List.map_cons, List.flatten_cons, le16, pcmOf]
  rfl

theorem pcm_readU16 (s : List ℝ) :
    ∀ i, i < s.length →
      readU16 (pcmOf s) (i * 2) = u16int (quantize (s.getD i 0)) := by
  induction s with
  | nil =>
    intro i hi
    exact absurd hi (by simp)
  | cons x t ih =>
    intro i hi
    rw [pcmOf_cons]
    cases i with
    | zero =>
      have hv : u16int (quantize x) < 2 ^ 16 := u16int_lt _
      show u16int (quantize x) % 256
          + 256 * (u16int (quantize x) / 256 % 256) = u16int (quantize x)
      omega
    | succ j =>
      rw [show (j + 1) * 2 = j * 2 + 2 by ring]
      show readU16 (pcmOf t) (j * 2) = u16int (quantize (t.getD j 0))
      exact ih j (by simpa using Nat.lt_of_succ_lt_succ hi)

/-- The 44 header bytes in explicit form. -/
theorem wavHeader_explicit (N : ℕ) (r : ℤ) :
    wavHeader N r
      = [82, 73, 70, 70,
         (36 + N * 2) % 2 ^ 32 % 256, (36 + N * 2) % 2 ^ 32 / 256 % 256,
         (36 + N * 2) % 2 ^ 32 / 256 ^ 2 % 256,
         (36 + N * 2) % 2 ^ 32 / 256 ^ 3 % 256,
         87, 65, 86, 69,
         102, 109, 116, 32,
         16, 0, 0, 0,
         1, 0, 1, 0,
         u32 r % 256, u32 r / 256 % 256, u32 r / 256 ^ 2 % 256,
         u32 r / 256 ^ 3 % 256,
         u32 (r * 2) % 256, u32 (r * 2) / 256 % 256,
         u32 (r * 2) / 256 ^ 2 % 256, u32 (r * 2) / 256 ^ 3 % 256,
         2, 0, 16, 0,
         100, 97, 116, 97,
         N * 2 % 2 ^ 32 % 256, N * 2 % 2 ^ 32 / 256 % 256,
         N * 2 % 2 ^ 32 / 256 ^ 2 % 256, N * 2 % 2 ^ 32 / 256 ^ 3 % 256] := by
  simp only [wavHeader, riffB, waveB, fmtB, dataB, le32, le16]
  norm_num

theorem wav_data_length (N : ℕ) (r : ℤ) (P : List ℕ) :
    (wavHeader N r ++ P).length = 44 + P.length := by
  rw [List.length_append, wavHeader_explicit]
  rfl

theorem wav_take_riff (N : ℕ) (r : ℤ) (P : List ℕ) :
    (wavHeader N r ++ P).take 4 = riffB := by
  rw [wavHeader_explicit]
  rfl

theorem wav_take_wave (N : ℕ) (r : ℤ) (P : List ℕ) :
    ((wavHeader N r ++ P).drop 8).take 4 = waveB := by
  rw [wavHeader_explicit]
  rfl

theorem wav_take_fmt (N : ℕ) (r : ℤ) (P : List ℕ) :
    ((wavHeader N r ++ P).drop 12).take 4 = fmtB := by
  rw [wavHeader_explicit]
  rfl

theorem wav_fmt_size (N : ℕ) (r : ℤ) (P : List ℕ) :
    readU32 (wavHeader N r ++ P) 16 = 16 := by
  rw [wavHeader_explicit]
  rfl

theorem wav_audio_format (N : ℕ) (r : ℤ) (P : List ℕ) :
    readU16 (wavHeader N r ++ P) 20 = 1 := by
  rw [wavHeader_explicit]
  rfl

theorem wav_channels (N : ℕ) (r : ℤ) (P : List ℕ) :
    readU16 (wavHeader N r ++ P) 22 = 1 := by
  rw [wavHeader_explicit]
  rfl

theorem wav_rate (N : ℕ) (r : ℤ) (P : List ℕ) :
    readU32 (wavHeader N r ++ P) 24 = u32 r := by
  rw [wavHeader_explicit]
  show u32 r % 256 + 256 * (u32 r / 256 % 256)
      + 256 ^ 2 * (u32 r / 256 ^ 2 % 256)
      + 256 ^ 3 * (u32 r / 256 ^ 3 % 256) = u32 r
  have := u32_lt r
  omega

theorem wav_bits (N : ℕ) (r : ℤ) (P : List ℕ) :
    readU16 (wavHeader N r ++ P) 34 = 16 := by
  rw [wavHeader_explicit]
  rfl

theorem wav_take_data (N : ℕ) (r : ℤ) (P : List ℕ) :
    ((wavHeader N r ++ P).drop 36).take 4 = dataB := by
  rw [wavHeader_explicit]
  rfl

theorem wav_data_size (N : ℕ) (r : ℤ) (P : List ℕ) :
    readU32 (wavHeader N r ++ P) 40 = N * 2 % 2 ^ 32 := by
  rw [wavHeader_explicit]
  show N * 2 % 2 ^ 32 % 256 + 256 * (N * 2 % 2 ^ 32 / 256 % 256)
      + 256 ^ 2 * (N * 2 % 2 ^ 32 / 256 ^ 2 % 256)
      + 256 ^ 3 * (N * 2 % 2 ^ 32 / 256 ^ 3 % 256) = N * 2 % 2 ^ 32
  omega

theorem wav_drop_44 (N : ℕ) (r : ℤ) (P : List ℕ) :
    (wavHeader N r ++ P).drop 44 = P := by
  rw [wavHeader_explicit]
  rfl

theorem walk_eval (N : ℕ) (r : ℤ) (P : List ℕ) (hP : P.length = 2 * N)
    (hN : N < 2 ^ 31) :
    walkChunks (wavHeader N r ++ P) 12 none none
      = .ok (some ⟨(u32 r : ℤ), 1, 16⟩, some P) := by
  have hdl := wav_data_length N r P
  have h2N : N * 2 % 2 ^ 32 = N * 2 := by omega
  rw [walkChunks]
  rw [dif_pos (by rw [hdl]; omega)]
  rw [if_pos (wav_take_fmt N r P)]
  rw [show (12 : ℕ) + 4 = 16 from rfl]
  rw [wav_fmt_size N r P]
  rw [if_neg (by norm_num)]
  rw [show (12 : ℕ) + 8 = 20 from rfl]
  rw [if_neg (show ¬ (wavHeader N r ++ P).length < 20 + 16 from by
    rw [hdl]; omega)]
  rw [if_neg (show ¬ readU16 (wavHeader N r ++ P) 20 ≠ 1 from by
    rw [wav_audio_format N r P]; norm_num)]
  rw [show (20 : ℕ) + 14 = 34 from rfl]
  rw [if_neg (show ¬ readU16 (wavHeader N r ++ P) 34 ≠ 16 from by
    rw [wav_bits N r P]; norm_num)]
  rw [show (20 : ℕ) + 4 = 24 from rfl, show (20 : ℕ) + 2 = 22 from rfl]
  rw [wav_rate N r P, wav_channels N r P, wav_bits N r P]
  rw [show (20 : ℕ) + 16 + (if (16 : ℕ) % 2 = 1 then 1 else 0) = 36 from rfl]
  rw [walkChunks]
  rw [dif_pos (by rw [hdl]; omega)]
  rw [if_neg (show ¬ ((wavHeader N r ++ P).drop 36).take 4 = fmtB from by
    rw [wav_take_data N r P]; decide)]
  rw [if_pos (wav_take_data N r P)]
  rw [show (36 : ℕ) + 4 = 40 from rfl]
  rw [wav_data_size N r P, h2N]
  rw [show (36 : ℕ) + 8 = 44 from rfl]
  rw [wav_drop_44 N r P]
  rw [hdl]
  rw [show min (44 + N * 2) (44 + P.length) - 44 = P.length from by omega]
  rw [List.take_length]
  rw [show (if N * 2 % 2 = 1 then 1 else 0) = 0 from by rw [if_neg]; omega]
  rw [walkChunks]
  rw [dif_neg (by rw [hdl]; omega)]

/-- Decoding the written file: the parse always succeeds, recovering the
quantized samples and `uint32(rate)` as the rate. -/
theorem ReadWAV_WriteWAV (samples : List ℝ) (rate : ℤ)
    (hN : samples.length < 2 ^ 31) :
    ReadWAV (WriteWAV samples rate)
      = .ok ((List.range samples.length).map
          (fun i =>
            ((toInt16 (u16int (quantize (samples.getD i 0))) : ℤ) : ℝ) / 32768),
        (u32 rate : ℤ)) := by
  have hP := pcmOf_length samples
  have hdl := wav_data_length samples.length rate (pcmOf samples)
  rw [WriteWAV, ReadWAV]
  rw [if_neg (by rw [hdl]; omega)]
  rw [if_neg (show ¬ (wavHeader samples.length rate ++ pcmOf samples).take 4
      ≠ riffB from by
    rw [wav_take_riff samples.length rate (pcmOf samples)]; simp)]
  rw [if_neg (show ¬ ((wavHeader samples.length rate
        ++ pcmOf samples).drop 8).take 4 ≠ waveB from by
    rw [wav_take_wave samples.length rate (pcmOf samples)]; simp)]
  rw [walk_eval samples.length rate (pcmOf samples) hP hN]
  show (if (1 : ℕ) = 2 then _ else _) = _
  rw [if_neg (by norm_num)]
  rw [hP, show 2 * samples.length / 2 = samples.length from by omega]
  congr 1
  congr 1
  apply List.map_congr_left
  intro i hi
  rw [pcm_readU16 samples i (List.mem_range.mp hi)]

/-- C10 (counterexample): the claim quantifies over every sample rate, but
the writer stores `uint32(rate)`; at rate `2^32` the file decodes with
rate 0, not `2^32`. -/
theorem wav_rate_wraps :
    ReadWAV (WriteWAV [] (2 ^ 32)) = .ok (([] : List ℝ), (0 : ℤ))
    ∧ (0 : ℤ) ≠ 2 ^ 32 := by
  constructor
  · rw [ReadWAV_WriteWAV [] (2 ^ 32) (by norm_num),
      show (u32 (2 ^ 32 : ℤ) : ℤ) = 0 from by unfold u32; norm_num]
    simp
  · norm_num

/-- C10 (amended): for samples in [-1, 1], a sample rate representable in
uint32 and fewer than `2^31` samples, decoding the encoding succeeds with
the same length, the same rate, and per-sample error at most 0.001. -/
theorem wav_roundtrip (samples : List ℝ) (rate : ℤ)
    (hs : ∀ x ∈ samples, |x| ≤ 1) (hr0 : 0 ≤ rate) (hr1 : rate < 2 ^ 32)
    (hN : samples.length < 2 ^ 31) :
    ∃ out, ReadWAV (WriteWAV samples rate) = .ok (out, rate)
      ∧ out.length = samples.length
      ∧ ∀ i, i < samples.length →
        |out.getD i 0 - samples.getD i 0| ≤ 0.001 := by
  have hrr : (u32 rate : ℤ) = rate := by
    unfold u32
    omega
  refine ⟨_, by rw [ReadWAV_WriteWAV samples rate hN, hrr], by simp, ?_⟩
  intro i hi
  rw [range_map_getD samples.length _ 0 i hi]
  have hmem : samples.getD i 0 ∈ samples := by
    rw [List.getD_eq_getElem _ _ hi]
    exact List.getElem_mem _
  have hsi := hs _ hmem
  obtain ⟨hq1, hq2⟩ := quantize_range (samples.getD i 0) hsi
  rw [toInt16_u16int _ hq1 hq2]
  exact quantize_err _ hsi

/-- C10 (witness): the amended round trip at `[1/2]`, 44100 Hz. -/
theorem wav_roundtrip_witness :
    ∃ out, ReadWAV (WriteWAV [(1 : ℝ) / 2] 44100) = .ok (out, 44100)
      ∧ out.length = ([(1 : ℝ) / 2] : List ℝ).length
      ∧ ∀ i, i < ([(1 : ℝ) / 2] : List ℝ).length →
        |out.getD i 0 - ([(1 : ℝ) / 2] : List ℝ).getD i 0| ≤ 0.001 :=
  wav_roundtrip [(1 : ℝ) / 2] 44100
    (by intro x hx; simp at hx; rw [hx, abs_le]; constructor <;> norm_num)
    (by norm_num) (by norm_num) (by norm_num)

end NoiseCancel
